import Mathlib

/-!
Shallow embedding of the FSA construction engine of `Fsa.py` (classes
`Edge`, `Graph`, `Asg`, `Ctc`, `Hmm`, `Store`) together with theorems
settling the specification claims about it.

Conventions of the embedding:
* Python edge labels are values of `PyLabel` (either an integer, a string,
  or Python's `None`), ordered the way CPython 2 orders mixed values:
  `None` below every number, every number below every string, strings
  lexicographically bytewise.
* Machine integers of the source are modelled as `Int` (no overflow occurs
  in the algorithms).  Edge weights only ever take the float values 0.0 and
  1.0 in the source, so they are modelled by `Nat`.
* In-place mutation is modelled by state passing; a Python crash
  (assertion, IndexError, KeyError, unbound local, TypeError) makes the
  modelled operation return `none`.
* `list.sort()` of Python is a stable sort; it is modelled by Mathlib's
  stable `List.insertionSort` over the tuple order on
  (source, target, label, weight).
-/

/-- A Python runtime value of an edge label: `None`, an `int`, or a `str`. -/
inductive PyLabel where
  | pyNone : PyLabel
  | pyInt (n : Int) : PyLabel
  | pyStr (s : String) : PyLabel
deriving DecidableEq, Repr

/-- Key used to compare labels the way CPython 2 compares mixed values:
`None` is below everything, numbers are below strings, strings compare
lexicographically. -/
def PyLabel.key : PyLabel → Lex (Nat × Lex (Int × String))
  | .pyNone => toLex (0, toLex ((0 : Int), ""))
  | .pyInt n => toLex (1, toLex (n, ""))
  | .pyStr s => toLex (2, toLex ((0 : Int), s))

/-- Python 2 `<=` on labels (via the comparison key). -/
def PyLabel.le (a b : PyLabel) : Prop := a.key ≤ b.key

instance : DecidableRel PyLabel.le := fun a b =>
  inferInstanceAs (Decidable (a.key ≤ b.key))

/-- The `Edge` class of `Fsa.py`: a directed weighted labeled transition
with its contextual annotations. -/
structure Edge where
  source : Int
  target : Int
  label : PyLabel
  weight : Nat := 0
  labelPrev : Option String := none
  labelNext : Option String := none
  idxWordInSentence : Option Int := none
  idxPhonInWord : Option Int := none
  idx : Option Int := none
  alloIdx : Option Int := none
  phonAtWordBegin : Bool := false
  phonAtWordEnd : Bool := false
  score : Option Int := none
  isLoop : Bool := false
deriving DecidableEq, Repr

/-- The reserved silence label `Edge.SIL = '_'`. -/
def silLabel : PyLabel := .pyStr "_"

/-- The reserved epsilon label `Edge.EPS = '*'`. -/
def epsLabel : PyLabel := .pyStr "*"

/-- The reserved blank label `Edge.BLANK = '%'`. -/
def blankLabel : PyLabel := .pyStr "%"

/-- Comparison key of an edge: the tuple
(source, target, label, weight) compared lexicographically, exactly the
tuple built by `Edge.as_tuple` and used by `Edge.__le__`. -/
def Edge.key (e : Edge) : Lex (Int × Lex (Int × Lex ((Lex (Nat × Lex (Int × String))) × Nat))) :=
  toLex (e.source, toLex (e.target, toLex (e.label.key, e.weight)))

/-- The total order on edges used by `self.fsa.edges.sort()`. -/
def edgeLE (e f : Edge) : Prop := e.key ≤ f.key

instance : DecidableRel edgeLE := fun e f =>
  inferInstanceAs (Decidable (e.key ≤ f.key))

instance : IsTotal Edge edgeLE :=
  ⟨fun e f => le_total e.key f.key⟩

instance : IsTrans Edge edgeLE :=
  ⟨fun _ _ _ h h2 => le_trans h h2⟩

/-- Python's stable `list.sort()` on edges. -/
def pySortEdges (es : List Edge) : List Edge := List.insertionSort edgeLE es

/-- The `Graph` class of `Fsa.py`: holds the input word list, the transient
working fields (`num_states`, `edges`) and the per-topology finalized
fields. -/
structure Graph where
  lemList : List String
  numStates : Int := -1
  numStatesAsg : Int := -1
  numStatesCtc : Int := -1
  numStatesHmm : Int := -1
  numStatesWord : Int := -1
  edges : List Edge := []
  edgesAsg : List Edge := []
  edgesCtc : List Edge := []
  edgesHmm : List Edge := []
  edgesWord : List Edge := []
deriving Repr

/-- `Graph.make_single_state_graph`: deep-copies the edge list and, when
`num_states > 1`, remaps every endpoint to state 0. -/
def makeSingleStateGraph (numStates : Int) (edges : List Edge) : List Edge :=
  if 1 < numStates then edges.map (fun e => { e with source := 0, target := 0 })
  else edges

/-- `Store.label_conversion` on one label.  `none` models the fatal paths:
the `assert False` for a label that is neither `int` nor `str`, and the
`TypeError` that `ord` raises on a string that is not a single character. -/
def labelConversion1 : PyLabel → Option PyLabel
  | .pyStr s =>
      if s = "%" then some (.pyInt 32)
      else if s = "_" then some (.pyStr s)
      else if s = "*" then some (.pyStr s)
      else match s.data with
        | [c] => some (.pyInt (c.toNat : Int))
        | _ => none
  | .pyInt n => some (.pyInt n)
  | .pyNone => none

/-- `Store.label_conversion` over an edge list (elementwise, fatal as soon
as one conversion is fatal). -/
def labelConversion : List Edge → Option (List Edge)
  | [] => some []
  | e :: es =>
      match labelConversion1 e.label with
      | none => none
      | some l => (labelConversion es).map (fun rest => { e with label := l } :: rest)

/-- State of the repetition scan of `Asg.run` (`label_prev`, `rep_count`),
carried across words. -/
structure AsgRepState where
  labelPrev : Option Char := none
  repCount : Nat := 0
deriving DecidableEq, Repr

/-- The body of the inner character loop of the repetition scan of
`Asg.run`, processing one character: returns the labels appended to
`reps_label` at this step and the updated scan state. -/
def asgCharStep (numLabels R : Int) (st : AsgRepState) (c : Char) :
    List PyLabel × AsgRepState :=
  if st.labelPrev = some c then
    if (st.repCount : Int) < R then ([], ⟨some c, st.repCount + 1⟩)
    else ([.pyInt (numLabels + st.repCount)], ⟨some c, 1⟩)
  else
    let flush : List PyLabel :=
      if st.repCount ≠ 0 then [.pyInt (numLabels + st.repCount)] else []
    (flush ++ [.pyStr (String.mk [c])], ⟨some c, 0⟩)

/-- The inner character loop of `Asg.run` over one word: builds the word's
`reps_label` list and the scan state left for the next word. -/
def asgWordScan (numLabels R : Int) : AsgRepState → List Char → List PyLabel × AsgRepState
  | st, [] => ([], st)
  | st, c :: cs =>
      let (out, st1) := asgCharStep numLabels R st c
      let (rest, st2) := asgWordScan numLabels R st1 cs
      (out ++ rest, st2)

/-- The outer word loop of the repetition scan of `Asg.run`: builds
`label_repetitions` and threads the scan state across word boundaries
(the source never resets it between words). -/
def asgScanWords (numLabels R : Int) : AsgRepState → List String → List (List PyLabel) × AsgRepState
  | st, [] => ([], st)
  | st, w :: ws =>
      let (lbls, st1) := asgWordScan numLabels R st w.data
      let (rest, st2) := asgScanWords numLabels R st1 ws
      (lbls :: rest, st2)

/-- `label_repetitions` as computed by `Asg.run`. -/
def asgReps (numLabels R : Int) (ws : List String) : List (List PyLabel) :=
  (asgScanWords numLabels R ⟨none, 0⟩ ws).1

/-- State of the edge-building loop of `Asg.run`
(`num_states`, `cur_idx`, `src_idx`, `trgt_idx`, `edges`). -/
structure AsgBuildState where
  numStates : Int
  curIdx : Int
  srcIdx : Int
  trgtIdx : Int
  edges : List Edge
deriving Repr

/-- The inner label loop of the edge building of `Asg.run` over one word's
`rep_label` list (`repIndex` is `rep_index`, `len` the word list's length,
`i` the running `idx`). -/
def asgEmitLabels (repIndex len : Nat) : Nat → List PyLabel → AsgBuildState → AsgBuildState
  | _, [], st => st
  | i, lab :: rest, st =>
      let src := st.curIdx
      let trg := src + 1
      let ns1 := if st.curIdx = 0 then st.numStates + 1 else st.numStates
      let e : Edge :=
        { source := src, target := trg, label := lab,
          idxWordInSentence := some (repIndex : Int),
          idxPhonInWord := some (i : Int),
          idx := some st.curIdx,
          phonAtWordBegin := i = 0,
          phonAtWordEnd := i = len - 1 }
      asgEmitLabels repIndex len (i + 1) rest
        { numStates := ns1 + 1, curIdx := st.curIdx + 1, srcIdx := src, trgtIdx := trg,
          edges := st.edges ++ [e] }

/-- The outer word loop of the edge building of `Asg.run`, including the
optional separator edge between words. -/
def asgEmitWords (separator : Bool) (total : Nat) : Nat → List (List PyLabel) → AsgBuildState → AsgBuildState
  | _, [], st => st
  | ri, ls :: rest, st =>
      let st1 := asgEmitLabels ri ls.length 0 ls st
      let st2 :=
        if separator ∧ ri < total - 1 then
          { numStates := st1.numStates + 1, curIdx := st1.curIdx + 1,
            srcIdx := st1.srcIdx, trgtIdx := st1.trgtIdx,
            edges := st1.edges ++
              [{ source := st1.srcIdx + 1, target := st1.trgtIdx + 1, label := blankLabel }] }
        else st1
      asgEmitWords separator total (ri + 1) rest st2

/-- Python's `range(1, n)` over `Int` bounds. -/
def pyRange1 (n : Int) : List Int :=
  ((List.range n.toNat).drop 1).map (fun k => (k : Int))

/-- The self-loop pass of `Asg.run`: for every state from 1 up, duplicate
each edge ending there whose label is neither epsilon nor silence as a
self-loop flagged `is_loop`. -/
def asgLoopsPass (ns : Int) (edges : List Edge) : List Edge :=
  (pyRange1 ns).foldl
    (fun es loopIdx =>
      let adds := es.filter
        (fun e => e.target == loopIdx && e.label != epsLabel && e.label != silLabel)
      es ++ adds.map (fun e => { e with source := e.target, isLoop := true }))
    edges

/-- The optional label conversion shared by `Asg.run` and `Ctc.run`. -/
def maybeLabelConversion (lc : Bool) (es : List Edge) : Option (List Edge) :=
  if lc then labelConversion es else some es

/-- `Asg.run`: repetition scan, edge building, loop synthesis, sort,
optional label conversion, finalization into the ASG fields.  `none`
models a fatal label-conversion error. -/
def asgRun (numLabels R : Int) (labelConv separator : Bool) (g : Graph) : Option Graph :=
  let reps := asgReps numLabels R g.lemList
  let st := asgEmitWords separator reps.length 0 reps
    { numStates := 0, curIdx := 0, srcIdx := 0, trgtIdx := 0, edges := g.edges }
  let edges1 := asgLoopsPass st.numStates st.edges
  let edges2 := pySortEdges edges1
  let conv : Option (List Edge) := maybeLabelConversion labelConv edges2
  conv.map (fun es =>
    { g with numStatesAsg := st.numStates, numStates := -1, edgesAsg := es, edges := [] })

/-- State of the lattice-building loop of `Ctc.run`
(`num_states`, `cur_idx`, `edges`). -/
structure CtcState where
  numStates : Int
  curIdx : Int
  edges : List Edge
deriving Repr

/-- The inner character loop of `Ctc.run` over one word `seq`: the direct
emit edge (suppressed when the character equals `seq[i-1]`, with Python's
wrap-around indexing at `i = 0`, unless the word has length 1), the blank
edge and the repeat edge. -/
def ctcEmitChars (wordIdx : Nat) (seq : List Char) : Nat → List Char → CtcState → CtcState
  | _, [], st => st
  | i, c :: rest, st =>
      let src := 2 * st.curIdx
      let ns1 := if st.curIdx = 0 then st.numStates + 1 else st.numStates
      let trg := src + 2
      let eNorm : Edge :=
        { source := src, target := trg, label := .pyStr (String.mk [c]),
          idx := some st.curIdx,
          idxWordInSentence := some (wordIdx : Int),
          idxPhonInWord := some (i : Int) }
      let prevChar : Option Char := if i = 0 then seq.getLast? else seq[i-1]?
      let es1 := if some c ≠ prevChar ∨ seq.length = 1 then st.edges ++ [eNorm] else st.edges
      let eBlank : Edge := { source := src, target := trg - 1, label := blankLabel }
      let eRep : Edge := { eNorm with source := src + 1 }
      ctcEmitChars wordIdx seq (i + 1) rest
        { numStates := ns1 + 2, curIdx := st.curIdx + 1, edges := es1 ++ [eBlank, eRep] }

/-- The outer word loop of `Ctc.run`, adding the three separator edges
(blank, silence and a silence shortcut) between words. -/
def ctcEmitWords (total : Nat) : Nat → List String → CtcState → CtcState
  | _, [], st => st
  | idx, w :: ws, st =>
      let st1 := ctcEmitChars idx w.data 0 w.data st
      let st2 :=
        if idx < total - 1 then
          { numStates := st1.numStates + 2, curIdx := st1.curIdx + 1,
            edges := st1.edges ++
              [ { source := 2 * st1.curIdx, target := 2 * st1.curIdx + 1, label := blankLabel },
                { source := 2 * st1.curIdx + 1, target := 2 * st1.curIdx + 2, label := silLabel },
                { source := 2 * st1.curIdx, target := 2 * st1.curIdx + 2, label := silLabel } ] }
        else st1
      ctcEmitWords total (idx + 1) ws st2

/-- The final-possibility tail of `Ctc.run` (`e_end_1`, `e_end_2`,
`e_end_3`) and the two recorded final states; `none` models the
`IndexError` of `lem_list[-1][-1]` on an empty input or an empty last
word. -/
def ctcTail (lemList : List String) (st : CtcState) : Option (Int × List Edge × List Int) :=
  match lemList.getLast? with
  | none => none
  | some lastWord =>
    match lastWord.data.getLast? with
    | none => none
    | some lastChar =>
      let e1 : Edge := { source := st.numStates - 3, target := st.numStates, label := blankLabel, weight := 1 }
      let e2 : Edge := { source := st.numStates + 1, target := st.numStates + 2, label := blankLabel, weight := 1 }
      let e3 : Edge := { source := st.numStates, target := st.numStates + 1,
                         label := .pyStr (String.mk [lastChar]), weight := 1 }
      let ns := st.numStates + 3
      some (ns, st.edges ++ [e1, e2, e3], [st.numStates - 1, ns - 1])

/-- The final-state unification of `Ctc.run`: unless the recorded final
states already collapse to the single last state, add one new final state
and re-route; `none` models the `IndexError` when a recorded final state
has no incoming edge. -/
def ctcUnify (ns : Int) (edges : List Edge) (finalStates : List Int) : Option (Int × List Edge) :=
  let collapsed : Bool := match finalStates with
    | [f] => f == ns - 1
    | _ => false
  if collapsed then some (ns, edges)
  else
    let ns2 := ns + 1
    let step : List Edge → Int → Option (List Edge) := fun es fstate =>
      match es.filter (fun e => e.target == fstate) with
      | [] => none
      | first :: restIncoming =>
          let node : Edge := { source := fstate, target := ns2 - 1, label := first.label }
          let dups := (first :: restIncoming).map (fun e => { e with target := ns2 - 1 })
          some (es ++ [node] ++ dups)
    (finalStates.foldlM step edges).map (fun es => (ns2, es))

/-- The self-loop pass of `Ctc.run`: for every state strictly between the
first and the final state, duplicate exactly the first edge ending there
as a self-loop; `none` models the `IndexError` when no edge ends there. -/
def ctcLoopsPass (ns : Int) (edges : List Edge) : Option (List Edge) :=
  (pyRange1 (ns - 1)).foldlM
    (fun es loopIdx =>
      match es.filter (fun e => e.target == loopIdx) with
      | [] => none
      | first :: _ =>
          some (es ++ [{ first with source := first.target, isLoop := true }]))
    edges

/-- `Ctc.run`: lattice building, tail, final-state unification, loop
synthesis, optional label conversion, sort, finalization into the CTC
fields. -/
def ctcRun (labelConv : Bool) (g : Graph) : Option Graph := do
  let st := ctcEmitWords g.lemList.length 0 g.lemList
    { numStates := 0, curIdx := 0, edges := g.edges }
  let (ns1, es1, finals) ← ctcTail g.lemList st
  let (ns2, es2) ← ctcUnify ns1 es1 finals
  let es3 ← ctcLoopsPass ns2 es2
  let es4 ← maybeLabelConversion labelConv es3
  let es5 := pySortEdges es4
  some { g with numStatesCtc := ns2, numStates := -1, edgesCtc := es5, edges := [] }

/-- One pronunciation variant of a lexicon entry: the space-separated
phoneme string and its score. -/
structure HmmVariant where
  phon : String
  score : Int
deriving DecidableEq, Repr

/-- The lexicon collaborator of `Hmm`: word to ordered pronunciation
variants (association list; `none` on lookup models the `KeyError`). -/
def Lexicon : Type := List (String × List HmmVariant)

/-- `self.lexicon.lemmas[word]['phons']`. -/
def lexLookup (lex : Lexicon) (w : String) : Option (List HmmVariant) :=
  (List.find? (fun p => p.1 == w) lex).map (fun p => p.2)

/-- The state-tying collaborator: allophone-context string to id. -/
def StateTying : Type := List (String × Int)

/-- Membership plus lookup in `state_tying.allo_map`. -/
def tyingLookup (st : StateTying) (s : String) : Option Int :=
  (List.find? (fun p => p.1 == s) st).map (fun p => p.2)

/-- Python's `str.split(' ')` (single-character separator, keeping empty
pieces, `[''']`-like behaviour on the empty string). -/
def splitSp : List Char → List (List Char)
  | [] => [[]]
  | c :: rest =>
      match splitSp rest with
      | [] => [[]]
      | w :: ws => if c = ' ' then [] :: w :: ws else (c :: w) :: ws

/-- `lemma['phon'].split(' ')` as a list of phoneme strings. -/
def phonSplit (s : String) : List String :=
  (splitSp s.data).map String.mk

/-- State of the word loop of `Hmm.run` (`num_states`, `split_node`,
`merge_node`, the possibly still unbound `target_node`, `edges`). -/
structure HmmState where
  numStates : Int
  splitNode : Int
  mergeNode : Int
  targetNode : Option Int
  edges : List Edge
deriving Repr

/-- The body of one iteration of the phoneme loop of `Hmm.run` (`wordIdx`
is `word_idx`, `lemmaIdx` is `lemma_idx`, `pdl` is `phon_dict_len`, `lem`
the phoneme list, `pi` the running `phon_idx`): the
split/merge bookkeeping, the source/target/num_states selection for the
three cases (single variant, first variant, later variant), and the
phoneme edge with its annotations. -/
def hmmPhonStep (wordIdx lemmaIdx pdl : Nat) (lem : List String) (score : Int)
    (pi : Nat) (phon : String) (st : HmmState) : HmmState :=
  let L := lem.length
  let split1 := if pdl ≠ 1 ∧ lemmaIdx = 0 ∧ pi = 0 then st.numStates else st.splitNode
  let merge1 := if pdl ≠ 1 ∧ lemmaIdx = 0 ∧ pi = L - 1 then st.numStates + 1 else st.mergeNode
  let stepped : Int × Int × Int :=
    if pdl = 1 then
      (st.numStates, st.numStates + 1, st.numStates + 1)
    else if lemmaIdx = 0 then
      (st.numStates, st.numStates + 1, st.numStates + 1)
    else
      let ns1 := if pi ≠ 0 then st.numStates + 1 else st.numStates
      ((if pi = 0 then split1 else ns1),
       (if pi = L - 1 then merge1 else ns1 + 1),
       ns1)
  let source := stepped.1
  let target := stepped.2.1
  let ns := stepped.2.2
  let e : Edge :=
    { source := source, target := target, label := .pyStr phon,
      labelPrev := some (if pi = 0 then "" else lem.getD (pi - 1) ""),
      labelNext := some (if pi = L - 1 then "" else lem.getD (pi + 1) ""),
      score := if pi = 0 then some score else none,
      idxWordInSentence := some (wordIdx : Int),
      idxPhonInWord := some (pi : Int),
      idx := some (ns + (pi : Int)),
      phonAtWordBegin := pi = 0,
      phonAtWordEnd := pi = L - 1 }
  { numStates := ns, splitNode := split1, mergeNode := merge1,
    targetNode := some target, edges := st.edges ++ [e] }

/-- The phoneme loop of `Hmm.run` for one pronunciation variant. -/
def hmmEmitPhons (wordIdx lemmaIdx pdl : Nat) (lem : List String) (score : Int) :
    Nat → List String → HmmState → HmmState
  | _, [], st => st
  | pi, phon :: rest, st =>
      hmmEmitPhons wordIdx lemmaIdx pdl lem score (pi + 1) rest
        (hmmPhonStep wordIdx lemmaIdx pdl lem score pi phon st)

/-- The pronunciation-variant loop of `Hmm.run` for one word. -/
def hmmEmitLemmas (wordIdx pdl : Nat) : Nat → List HmmVariant → HmmState → HmmState
  | _, [], st => st
  | li, v :: vs, st =>
      let lem := phonSplit v.phon
      let st1 := hmmEmitPhons wordIdx li pdl lem v.score 0 lem st
      hmmEmitLemmas wordIdx pdl (li + 1) vs st1

/-- The body of one iteration of the word loop of `Hmm.run` (after the
first-word silence/epsilon pair): lexicon lookup, all pronunciation
variants, then the silence/epsilon pair out of the word-exit state.
`none` models the `KeyError` of a word missing from the lexicon and the
unbound `target_node` when no phoneme edge was ever emitted. -/
def hmmWordStep (lex : Lexicon) (wi : Nat) (w : String) (st : HmmState) : Option HmmState := do
  let variants ← lexLookup lex w
  let st1 := hmmEmitLemmas wi variants.length 0 variants st
  let tn ← st1.targetNode
  some { st1 with
         edges := st1.edges ++
           [ { source := tn, target := st1.numStates + 1, label := silLabel },
             { source := tn, target := st1.numStates + 1, label := epsLabel } ],
         numStates := st1.numStates + 1 }

/-- The word loop of `Hmm.run`: the initial silence/epsilon pair is added
before the first word only. -/
def hmmEmitWords (lex : Lexicon) : Nat → List String → HmmState → Option HmmState
  | _, [], st => some st
  | wi, w :: ws, st => do
      let st0 :=
        if wi = 0 then
          { st with
            edges := st.edges ++
              [ { source := 0, target := 1, label := silLabel },
                { source := 0, target := 1, label := epsLabel } ],
            numStates := st.numStates + 2 }
        else st
      let st2 ← hmmWordStep lex wi w st0
      hmmEmitWords lex (wi + 1) ws st2

/-- One iteration of the inner allophone-state loop of `Hmm.run`
(`alloTarget` is the saved original target of the edge being expanded):
state 0 retargets the current edge to the running fresh state, the last
state closes the chain back to the saved target, the middle states add
consecutive chain edges. -/
def alloInnerStep (K : Int) (alloTarget : Int) (acc : Edge × Int × List Edge)
    (state : Nat) : Edge × Int × List Edge :=
  let ecur := acc.1
  let ns := acc.2.1
  let adds := acc.2.2
  if state = 0 then
    ({ ecur with target := ns, alloIdx := some 0 }, ns, adds)
  else if (state : Int) = K - 1 then
    let e1 := { ecur with alloIdx := some (state : Int),
                          source := ns, target := alloTarget }
    (ecur, ns + 1, adds ++ [e1])
  else
    let e2 := { ecur with alloIdx := some (state : Int),
                          source := ns + 1 - 1, target := ns + 1 }
    (ecur, ns + 1, adds ++ [e2])

/-- The allophone expansion of one edge in `Hmm.run` (`K` is
`allo_num_states`): the edge itself is retargeted to the first fresh
chain state, the intermediate and closing sub-edges go to the temporary
list. -/
def alloExpandEdge (K : Int) (st : Int × List Edge × List Edge) (e : Edge) :
    Int × List Edge × List Edge :=
  let ns0 := st.1
  let mainEdges := st.2.1
  let tmp := st.2.2
  if e.label = silLabel ∨ e.label = epsLabel then (ns0, mainEdges ++ [e], tmp)
  else
    let expanded := (List.range K.toNat).foldl (alloInnerStep K e.target) (e, ns0, [])
    (expanded.2.1, mainEdges ++ [expanded.1], tmp ++ expanded.2.2)

/-- The allophone expansion pass of `Hmm.run` over all edges (a no-op
unless `allo_num_states > 1`); the temporary edges are appended at the
end, as by `edges.extend(edges_allo_tmp)`. -/
def alloExpand (K : Int) (ns : Int) (edges : List Edge) : Int × List Edge :=
  if 1 < K then
    let st := edges.foldl (alloExpandEdge K) (ns, [], [])
    (st.1, st.2.1 ++ st.2.2)
  else (ns, edges)

/-- The per-edge effect of one swap of the state-renumbering pass of
`Hmm.run`: the two sequential rewrite loops driven by
`_find_node_in_edges(u, edges)` and `_find_node_in_edges(v, edges)`,
with both membership dictionaries computed before any mutation. -/
def swapNodesEdge (u v : Int) (e : Edge) : Edge :=
  let e1 :=
    if e.source = u ∧ e.target = u then { e with source := v, target := v }
    else if e.target = u then { e with target := v }
    else if e.source = u then { e with source := v }
    else e
  if e.source = v ∧ e.target = v then { e1 with source := u, target := u }
  else if e.target = v then { e1 with target := u }
  else if e.source = v then { e1 with source := u }
  else e1

/-- The state-renumbering (topological repair) loop of `Hmm.run`: scan
edges from `idx`; on an edge with source > target, swap the two state
numbers throughout all edges and resume from index 1 (the source sets
`sort_idx = 0` and then immediately increments it).  Fueled; `none` means
the fuel ran out before the loop exited. -/
def hmmRepair : Nat → List Edge → Nat → Option (List Edge)
  | 0, _, _ => none
  | fuel + 1, edges, idx =>
      match edges[idx]? with
      | none => some edges
      | some e =>
          if e.target < e.source then
            hmmRepair fuel (edges.map (swapNodesEdge e.source e.target)) 1
          else
            hmmRepair fuel edges (idx + 1)

/-- The self-loop pass of `Hmm.run`: for every state from 1 up, duplicate
every edge ending there whose label is not epsilon as a self-loop. -/
def hmmLoopsPass (ns : Int) (edges : List Edge) : List Edge :=
  (pyRange1 ns).foldl
    (fun es state =>
      let adds := es.filter (fun e => e.target == state && e.label != epsLabel)
      es ++ adds.map (fun e => { e with source := e.target }))
    edges

/-- `"%s" % value` for a label. -/
def pyStrOf : PyLabel → String
  | .pyStr s => s
  | .pyInt n => toString n
  | .pyNone => "None"

/-- `"%s" % value` for an optional context string. -/
def pyStrOfOpt : Option String → String
  | some s => s
  | none => "None"

/-- `Hmm._build_allo_syntax_for_mapping`. -/
def buildAlloSyntax (e : Edge) : String :=
  let m1 :=
    if e.label = silLabel then "[SILENCE]" ++ "\x7b#+#\x7d"
    else if e.label = epsLabel then "*"
    else
      if e.labelPrev = some "" ∧ e.labelNext = some "" then
        pyStrOf e.label ++ "\x7b#+#\x7d"
      else if e.labelPrev = some "" then
        pyStrOf e.label ++ "\x7b#+" ++ pyStrOfOpt e.labelNext ++ "\x7d"
      else if e.labelNext = some "" then
        pyStrOf e.label ++ "\x7b" ++ pyStrOfOpt e.labelPrev ++ "+#\x7d"
      else
        pyStrOf e.label ++ "\x7b" ++ pyStrOfOpt e.labelPrev ++ "+" ++ pyStrOfOpt e.labelNext ++ "\x7d"
  let m2 := m1 ++ (if e.phonAtWordBegin then "@i" else "")
               ++ (if e.phonAtWordEnd then "@f" else "")
  if e.label = silLabel then m2 ++ ".0"
  else if e.label = epsLabel then m2
  else match e.alloIdx with
       | some a => m2 ++ "." ++ toString a
       | none => m2

/-- The label stringification and optional state-tying conversion pass of
`Hmm.run` (a tying miss is reported but non-fatal: the stringified label
stays in place). -/
def hmmStringify (tying : Option StateTying) (edges : List Edge) : List Edge :=
  edges.map (fun e =>
    let s := buildAlloSyntax e
    let e1 : Edge := { e with label := .pyStr s }
    match tying with
    | none => e1
    | some ty =>
        if e1.label = epsLabel then e1
        else match tyingLookup ty s with
             | some i => { e1 with label := .pyInt i }
             | none => e1)

/-- `Hmm.run`: word/variant/phoneme expansion, final node, allophone
expansion, state renumbering, loop synthesis, stringification with
optional tying, sort, finalization into the HMM fields. -/
def hmmRun (fuel : Nat) (lex : Lexicon) (K : Int) (stc : Bool) (tying : StateTying)
    (g : Graph) : Option Graph := do
  let st ← hmmEmitWords lex 0 g.lemList
    { numStates := g.numStates, splitNode := 0, mergeNode := 0, targetNode := none,
      edges := g.edges }
  let ns1 := st.numStates + 1
  let expanded := alloExpand K ns1 st.edges
  let es3 ← hmmRepair fuel expanded.2 0
  let es4 := hmmLoopsPass expanded.1 es3
  let es5 := hmmStringify (if stc then some tying else none) es4
  let es6 := pySortEdges es5
  some { g with numStatesHmm := expanded.1, numStates := -1, edgesHmm := es6, edges := [] }

/-- A Python runtime value, as far as the constructors' `isinstance`
checks can observe it. -/
inductive PyVal where
  | vint (n : Int)
  | vstr (s : String)
  | vbool (b : Bool)
  | vgraph
  | vnone
  | vlist
deriving DecidableEq, Repr

/-- `isinstance(x, Graph)`. -/
def isInstGraph : PyVal → Bool
  | .vgraph => true
  | _ => false

/-- `isinstance(x, int)` (Python's `bool` is a subclass of `int`). -/
def isInstInt : PyVal → Bool
  | .vint _ => true
  | .vbool _ => true
  | _ => false

/-- `isinstance(x, bool)`. -/
def isInstBool : PyVal → Bool
  | .vbool _ => true
  | _ => false

/-- The argument validation of `Asg.__init__` (the constructor accepts iff
this is true; otherwise `assert False` fires). -/
def asgInitOk (fsa numLabels asgRepetition labelConversion : PyVal) : Bool :=
  isInstGraph fsa && isInstInt numLabels && isInstInt asgRepetition
    && isInstBool labelConversion

/-- The argument validation of `Ctc.__init__` (three separate asserts;
note the source checks `isinstance(label_conversion, int)`). -/
def ctcInitOk (fsa numLabels labelConversion : PyVal) : Bool :=
  isInstGraph fsa && isInstInt numLabels && isInstInt labelConversion

/-- The argument validation of `Hmm.__init__` (no check at all on
`state_tying_conversion`). -/
def hmmInitOk (fsa depth alloNumStates : PyVal) : Bool :=
  isInstGraph fsa && isInstInt depth && isInstInt alloNumStates

/-! ## Helper lemmas about label conversion -/

theorem labelConversion_forall2 : ∀ es es2, labelConversion es = some es2 →
    List.Forall₂ (fun e e2 : Edge =>
      labelConversion1 e.label = some e2.label ∧ e2.source = e.source ∧
      e2.target = e.target ∧ e2.weight = e.weight) es es2 := by
  intro es
  induction es with
  | nil =>
      intro es2 h
      simp only [labelConversion, Option.some.injEq] at h
      subst h
      exact .nil
  | cons e es ih =>
      intro es2 h
      simp only [labelConversion] at h
      cases hl : labelConversion1 e.label with
      | none => rw [hl] at h; simp at h
      | some l =>
          rw [hl] at h
          dsimp only at h
          cases hr : labelConversion es with
          | none => rw [hr] at h; simp at h
          | some rest =>
              rw [hr] at h
              rw [Option.map_some'] at h
              have h2 := Option.some.inj h
              subst h2
              exact .cons ⟨hl, rfl, rfl, rfl⟩ (ih rest hr)

theorem labelConversion_none_of_bad : ∀ (es : List Edge) (e : Edge), e ∈ es →
    labelConversion1 e.label = none → labelConversion es = none := by
  intro es
  induction es with
  | nil => intro e h; simp at h
  | cons f es ih =>
      intro e hmem hbad
      rcases List.mem_cons.mp hmem with h | h
      · subst h
        simp only [labelConversion, hbad]
      · simp only [labelConversion]
        cases hl : labelConversion1 f.label with
        | none => rfl
        | some l => rw [ih e h hbad]; rfl

theorem labelConversion1_char (c : Char) (h1 : c ≠ '%') (h2 : c ≠ '_') (h3 : c ≠ '*') :
    labelConversion1 (.pyStr (String.mk [c])) = some (.pyInt (c.toNat : Int)) := by
  have k1 : String.mk [c] ≠ "%" := by
    intro h; apply h1; have := congrArg String.data h; simpa using this
  have k2 : String.mk [c] ≠ "_" := by
    intro h; apply h2; have := congrArg String.data h; simpa using this
  have k3 : String.mk [c] ≠ "*" := by
    intro h; apply h3; have := congrArg String.data h; simpa using this
  simp only [labelConversion1, if_neg k1, if_neg k2, if_neg k3]

theorem labelConversion1_none_of_shape (l : PyLabel)
    (h : l = .pyNone ∨ ∃ s, l = .pyStr s ∧ ∀ c : Char, s.data ≠ [c]) :
    labelConversion1 l = none := by
  rcases h with h | ⟨s, rfl, hs⟩
  · subst h; rfl
  · have k1 : s ≠ "%" := by
      intro h; apply hs '%'; rw [h]
    have k2 : s ≠ "_" := by
      intro h; apply hs '_'; rw [h]
    have k3 : s ≠ "*" := by
      intro h; apply hs '*'; rw [h]
    show (if s = "%" then some (PyLabel.pyInt 32)
      else if s = "_" then some (PyLabel.pyStr s)
      else if s = "*" then some (PyLabel.pyStr s)
      else match s.data with
        | [c] => some (PyLabel.pyInt (c.toNat : Int))
        | _ => none) = none
    rw [if_neg k1, if_neg k2, if_neg k3]
    cases hd : s.data with
    | nil => rfl
    | cons c cs =>
        cases cs with
        | nil => exact absurd hd (hs c)
        | cons c2 cs2 => rfl

/-- The pointwise relation asserted by claim C7 between an edge and its
converted image. -/
def c7Pair (e e2 : Edge) : Prop :=
  e2.source = e.source ∧ e2.target = e.target ∧ e2.weight = e.weight ∧
  (e.label = blankLabel → e2.label = .pyInt 32) ∧
  (e.label = silLabel → e2.label = silLabel) ∧
  (e.label = epsLabel → e2.label = epsLabel) ∧
  (∀ n : Int, e.label = .pyInt n → e2.label = .pyInt n) ∧
  (∀ c : Char, e.label = .pyStr (String.mk [c]) → c ≠ '%' → c ≠ '_' → c ≠ '*' →
    e2.label = .pyInt (c.toNat : Int))

/-- C7: `Store.label_conversion`, applied elementwise to an edge list,
maps the blank reserved symbol to the character code of space (32); leaves
the silence and epsilon reserved symbols and integer labels unchanged;
maps any other single-character string label to its character code; and is
fatal on any other label shape (`None`-like labels, strings that are not a
single character). -/
theorem c7_label_conversion_spec :
    (∀ es es2 : List Edge, labelConversion es = some es2 →
      List.Forall₂ c7Pair es es2) ∧
    (∀ (es : List Edge) (e : Edge), e ∈ es →
      (e.label = .pyNone ∨ ∃ s, e.label = .pyStr s ∧ ∀ c : Char, s.data ≠ [c]) →
      labelConversion es = none) := by
  constructor
  · intro es es2 h
    refine (labelConversion_forall2 es es2 h).imp ?_
    rintro e e2 ⟨hl, hs, ht, hw⟩
    refine ⟨hs, ht, hw, ?_, ?_, ?_, ?_, ?_⟩
    · intro hb
      rw [hb] at hl
      have hl2 : (some (PyLabel.pyInt 32) : Option PyLabel) = some e2.label := hl
      exact (Option.some.inj hl2).symm
    · intro hb
      rw [hb] at hl
      have hl2 : (some silLabel : Option PyLabel) = some e2.label := hl
      exact (Option.some.inj hl2).symm
    · intro hb
      rw [hb] at hl
      have hl2 : (some epsLabel : Option PyLabel) = some e2.label := hl
      exact (Option.some.inj hl2).symm
    · intro n hb
      rw [hb] at hl
      have hl2 : (some (PyLabel.pyInt n) : Option PyLabel) = some e2.label := hl
      exact (Option.some.inj hl2).symm
    · intro c hb h1 h2 h3
      rw [hb, labelConversion1_char c h1 h2 h3] at hl
      exact (Option.some.inj hl).symm
  · intro es e he hshape
    exact labelConversion_none_of_bad es e he (labelConversion1_none_of_shape _ hshape)

/-- Concrete edges exercising every branch of the conversion. -/
def c7Edges : List Edge :=
  [ { source := 0, target := 1, label := blankLabel },
    { source := 1, target := 2, label := silLabel },
    { source := 2, target := 3, label := epsLabel },
    { source := 3, target := 4, label := .pyInt 7 },
    { source := 4, target := 5, label := .pyStr "a" } ]

/-- Witness for C7 at a concrete edge list covering all branches. -/
theorem c7_label_conversion_spec_witness :
    List.Forall₂ c7Pair c7Edges ((labelConversion c7Edges).getD []) :=
  c7_label_conversion_spec.1 c7Edges ((labelConversion c7Edges).getD []) rfl

/-- C9: `Graph.make_single_state_graph` is pure (it deep-copies, never
mutating its input); it returns a list of the same length and order with
labels and weights preserved, every endpoint remapped to 0 when
`num_states > 1`, and an unmodified copy when `num_states <= 1`. -/
theorem c9_make_single_state_graph (numStates : Int) (edges : List Edge) :
    (makeSingleStateGraph numStates edges).length = edges.length ∧
    List.Forall₂ (fun e e2 : Edge => e2.label = e.label ∧ e2.weight = e.weight)
      edges (makeSingleStateGraph numStates edges) ∧
    (1 < numStates → ∀ e ∈ makeSingleStateGraph numStates edges,
      e.source = 0 ∧ e.target = 0) ∧
    (numStates ≤ 1 → makeSingleStateGraph numStates edges = edges) := by
  unfold makeSingleStateGraph
  by_cases h : 1 < numStates
  · rw [if_pos h]
    refine ⟨List.length_map _ _, ?_, ?_, ?_⟩
    · rw [List.forall₂_map_right_iff]
      exact List.forall₂_same.mpr (fun e _ => ⟨rfl, rfl⟩)
    · intro _ e he
      rcases List.mem_map.mp he with ⟨f, _, rfl⟩
      exact ⟨rfl, rfl⟩
    · intro hle
      exact absurd h (not_lt.mpr hle)
  · rw [if_neg h]
    exact ⟨rfl, List.forall₂_same.mpr (fun e _ => ⟨rfl, rfl⟩),
      fun hlt => absurd hlt h, fun _ => rfl⟩

/-- Witness for C9 at `num_states = 2` and a one-edge list. -/
theorem c9_make_single_state_graph_witness :
    (makeSingleStateGraph 2 c7Edges).length = c7Edges.length ∧
    List.Forall₂ (fun e e2 : Edge => e2.label = e.label ∧ e2.weight = e.weight)
      c7Edges (makeSingleStateGraph 2 c7Edges) ∧
    (1 < (2 : Int) → ∀ e ∈ makeSingleStateGraph 2 c7Edges,
      e.source = 0 ∧ e.target = 0) ∧
    ((2 : Int) ≤ 1 → makeSingleStateGraph 2 c7Edges = c7Edges) :=
  c9_make_single_state_graph 2 c7Edges

/-- C5: the constructors only perform `isinstance` checks, contradicting
their own docstrings (`num_labels > 0`, `asg_repetition > 1`,
`allo_num_states > 0`): every out-of-range integer argument is accepted,
while malformed argument types are indeed rejected. -/
theorem c5_init_range_checks_absent :
    asgInitOk .vgraph (.vint 0) (.vint 1) (.vbool false) = true ∧
    asgInitOk .vgraph (.vint (-7)) (.vint 0) (.vbool false) = true ∧
    ctcInitOk .vgraph (.vint (-1)) (.vbool false) = true ∧
    hmmInitOk .vgraph (.vint 6) (.vint 0) = true ∧
    hmmInitOk .vgraph (.vint 6) (.vint (-3)) = true ∧
    asgInitOk .vnone (.vint 5) (.vint 2) (.vbool false) = false ∧
    asgInitOk .vgraph (.vstr "x") (.vint 2) (.vbool false) = false ∧
    hmmInitOk .vgraph (.vint 6) (.vstr "x") = false := by
  decide

/-- The graph for the word "aaa". -/
def c4Graph : Graph := { lemList := ["aaa"] }

/-- C4 (code bug): on the single word "aaa" with `asg_repetition = 2` and
`num_labels = 256`, `Asg.run` emits only the advancing edge labelled "a"
(plus its self-loop): the pending repeat counter of the trailing run is
never flushed at the end of the scan, so the repetition marker 258 is
dropped instead of being emitted. -/
theorem c4_trailing_repeats_dropped :
    (asgRun 256 2 false false c4Graph).map
      (fun g => (g.numStatesAsg, g.edgesAsg.map (fun e => (e.source, e.target, e.label)))) =
    some (2, [(0, 1, .pyStr "a"), (1, 1, .pyStr "a")]) ∧
    asgReps 256 2 ["aaa"] = [[.pyStr "a"]] := by
  constructor <;> rfl

/-- The graph for the word "aba". -/
def c3Graph : Graph := { lemList := ["aba"] }

/-- C3 (code bug): in `Ctc.run` on the word "aba", the first label gets no
direct emit edge at all (no edge from state 0 to state 2), because the
source compares `seq[0]` against `seq[-1]` (the last character, by
Python's wrap-around indexing) instead of against a nonexistent
predecessor; the later labels "b" and "a", each different from their true
predecessor, do get their direct edges. -/
theorem c3_first_label_direct_edge_missing :
    (ctcRun false c3Graph).map
      (fun g =>
        (g.edgesCtc.countP (fun e => e.source == 0 && e.target == 2),
         g.edgesCtc.countP (fun e => e.source == 2 && e.target == 4 && e.label == PyLabel.pyStr "b"),
         g.edgesCtc.countP (fun e => e.source == 4 && e.target == 6 && e.label == PyLabel.pyStr "a"))) =
    some (0, 1, 1) := by
  rfl

/-- An acyclic edge list with one deliberate inversion at index 1. -/
def c1Edges : List Edge :=
  [ { source := 2, target := 3, label := .pyStr "a" },
    { source := 4, target := 2, label := .pyStr "b" } ]

/-- C1 (code bug): the state-renumbering pass terminates on the acyclic
list [(2,3), (4,2)] but leaves the inversion (4,3) at index 0: the swap
of states 4 and 2 correctly relabels both edges, but the scan resumes at
index 1 (`sort_idx = 0` is immediately incremented), so index 0 is never
rechecked, contradicting the intended restart from the beginning. -/
theorem c1_repair_leaves_inversion :
    (hmmRepair 10 c1Edges 0).map (fun es => es.map (fun e => (e.source, e.target))) =
      some [(4, 3), (2, 4)] ∧
    (hmmRepair 10 c1Edges 0).map (fun es => es.countP (fun e => decide (e.target < e.source))) =
      some 1 := by
  constructor <;> rfl

/-- After the repetition scan processes one character, `label_prev` is
always that character. -/
theorem asgCharStep_labelPrev (numLabels R : Int) (st : AsgRepState) (c : Char) :
    (asgCharStep numLabels R st c).2.labelPrev = some c := by
  unfold asgCharStep
  split
  · split <;> rfl
  · rfl

/-- After the repetition scan processes a word ending in `c`, the carried
`label_prev` is `c`. -/
theorem asgWordScan_labelPrev (numLabels R : Int) :
    ∀ (w : List Char) (st : AsgRepState) (c : Char),
    (asgWordScan numLabels R st (w ++ [c])).2.labelPrev = some c := by
  intro w
  induction w with
  | nil =>
      intro st c
      simp only [List.nil_append, asgWordScan]
      exact asgCharStep_labelPrev numLabels R st c
  | cons d w ih =>
      intro st c
      simp only [List.cons_append, asgWordScan]
      exact ih _ c

/-- C10 counterexample: on the two-word input ["aaa", "a"] with `R = 2`,
the scan state at the word boundary is (prev = 'a', counter = 2); the
boundary character 'a' matches, but the repeat counter is not advanced
(it resets from 2 to 1, flushing the marker 258), falsifying the claim
that at every such boundary the counter is advanced. -/
theorem c10_counter_not_advanced_at_boundary :
    (asgScanWords 256 2 ⟨none, 0⟩ ["aaa"]).2 = ⟨some 'a', 2⟩ ∧
    ¬ ((asgCharStep 256 2 ⟨some 'a', 2⟩ 'a').2.repCount = 2 + 1) ∧
    (asgCharStep 256 2 ⟨some 'a', 2⟩ 'a').1 = [.pyInt 258] := by
  refine ⟨rfl, ?_, rfl⟩
  decide

/-- C10 (amended): the repeated-character state is not reset at word
boundaries.  Whenever the carried `label_prev` (which is exactly the last
character of the preceding word) equals the first character of the next
word, that character takes the repetition branch: no direct label is
emitted for it (only possibly an integer marker), and the counter is
advanced by one when below the threshold, otherwise a marker is flushed
and the counter resets to 1; consequently the emitted label sequence of a
word depends on the preceding word, e.g. "ba" after "ab" versus after
"xy". -/
theorem c10_cross_word_repetition (numLabels R : Int) (st : AsgRepState) (c : Char)
    (hprev : st.labelPrev = some c) :
    (∀ l ∈ (asgCharStep numLabels R st c).1, ∃ n : Int, l = .pyInt n) ∧
    ((asgCharStep numLabels R st c).2.repCount =
      if (st.repCount : Int) < R then st.repCount + 1 else 1) ∧
    (∀ w : List Char, (asgWordScan numLabels R st (w ++ [c])).2.labelPrev = some c) ∧
    (asgReps 256 2 ["ab", "ba"]).getD 1 [] ≠ (asgReps 256 2 ["xy", "ba"]).getD 1 [] := by
  refine ⟨?_, ?_, fun w => asgWordScan_labelPrev numLabels R w st c, by decide⟩
  · intro l hl
    unfold asgCharStep at hl
    rw [if_pos hprev] at hl
    by_cases hR : (st.repCount : Int) < R
    · rw [if_pos hR] at hl
      simp at hl
    · rw [if_neg hR] at hl
      rcases List.mem_singleton.mp hl with rfl
      exact ⟨_, rfl⟩
  · unfold asgCharStep
    rw [if_pos hprev]
    by_cases hR : (st.repCount : Int) < R
    · rw [if_pos hR, if_pos hR]
    · rw [if_neg hR, if_neg hR]

/-- Witness for C10 at the concrete state (prev = 'a', counter = 0). -/
theorem c10_cross_word_repetition_witness :
    (∀ l ∈ (asgCharStep 256 2 ⟨some 'a', 0⟩ 'a').1, ∃ n : Int, l = .pyInt n) ∧
    ((asgCharStep 256 2 ⟨some 'a', 0⟩ 'a').2.repCount =
      if ((0 : Nat) : Int) < 2 then 0 + 1 else 1) ∧
    (∀ w : List Char, (asgWordScan 256 2 ⟨some 'a', 0⟩ (w ++ ['a'])).2.labelPrev = some 'a') ∧
    (asgReps 256 2 ["ab", "ba"]).getD 1 [] ≠ (asgReps 256 2 ["xy", "ba"]).getD 1 [] :=
  c10_cross_word_repetition 256 2 ⟨some 'a', 0⟩ 'a' rfl

/-- C8: after each of the three builders completes, the Graph's transient
working fields are cleared (`num_states = -1`, `edges = []`), the input
word list is untouched, and the finalized fields of all other topologies
are left unchanged. -/
theorem c8_working_fields_cleared :
    (∀ (numLabels R : Int) (lc sep : Bool) (g g2 : Graph),
      asgRun numLabels R lc sep g = some g2 →
      g2.numStates = -1 ∧ g2.edges = [] ∧ g2.lemList = g.lemList ∧
      g2.numStatesCtc = g.numStatesCtc ∧ g2.edgesCtc = g.edgesCtc ∧
      g2.numStatesHmm = g.numStatesHmm ∧ g2.edgesHmm = g.edgesHmm ∧
      g2.numStatesWord = g.numStatesWord ∧ g2.edgesWord = g.edgesWord) ∧
    (∀ (lc : Bool) (g g2 : Graph),
      ctcRun lc g = some g2 →
      g2.numStates = -1 ∧ g2.edges = [] ∧ g2.lemList = g.lemList ∧
      g2.numStatesAsg = g.numStatesAsg ∧ g2.edgesAsg = g.edgesAsg ∧
      g2.numStatesHmm = g.numStatesHmm ∧ g2.edgesHmm = g.edgesHmm ∧
      g2.numStatesWord = g.numStatesWord ∧ g2.edgesWord = g.edgesWord) ∧
    (∀ (fuel : Nat) (lex : Lexicon) (K : Int) (stc : Bool) (ty : StateTying) (g g2 : Graph),
      hmmRun fuel lex K stc ty g = some g2 →
      g2.numStates = -1 ∧ g2.edges = [] ∧ g2.lemList = g.lemList ∧
      g2.numStatesAsg = g.numStatesAsg ∧ g2.edgesAsg = g.edgesAsg ∧
      g2.numStatesCtc = g.numStatesCtc ∧ g2.edgesCtc = g.edgesCtc ∧
      g2.numStatesWord = g.numStatesWord ∧ g2.edgesWord = g.edgesWord) := by
  refine ⟨?_, ?_, ?_⟩
  · intro numLabels R lc sep g g2 h
    unfold asgRun at h
    rcases Option.map_eq_some'.mp h with ⟨es, _, rfl⟩
    exact ⟨rfl, rfl, rfl, rfl, rfl, rfl, rfl, rfl, rfl⟩
  · intro lc g g2 h
    unfold ctcRun at h
    simp only [bind, Option.bind_eq_some] at h
    rcases h with ⟨⟨ns1, es1, finals⟩, _, h⟩
    rcases h with ⟨⟨ns2, es2⟩, _, h⟩
    rcases h with ⟨es3, _, h⟩
    rcases h with ⟨es4, _, h⟩
    rcases Option.some.inj h
    exact ⟨rfl, rfl, rfl, rfl, rfl, rfl, rfl, rfl, rfl⟩
  · intro fuel lex K stc ty g g2 h
    unfold hmmRun at h
    simp only [bind, Option.bind_eq_some] at h
    rcases h with ⟨st, _, h⟩
    rcases h with ⟨es3, _, h⟩
    rcases Option.some.inj h
    exact ⟨rfl, rfl, rfl, rfl, rfl, rfl, rfl, rfl, rfl⟩

/-- A concrete input graph carrying nonempty fields of other topologies. -/
def c8InGraph : Graph :=
  { lemList := ["ab"], numStatesCtc := 7, edgesCtc := c7Edges, numStatesHmm := 5 }

/-- The concrete output of `Asg.run` on `c8InGraph`. -/
def c8AsgOut : Graph :=
  (asgRun 256 2 false false c8InGraph).getD { lemList := [] }

/-- Witness for C8: the ASG clause applied at a concrete graph. -/
theorem c8_working_fields_cleared_witness :
    c8AsgOut.numStates = -1 ∧ c8AsgOut.edges = [] ∧ c8AsgOut.lemList = c8InGraph.lemList ∧
    c8AsgOut.numStatesCtc = c8InGraph.numStatesCtc ∧ c8AsgOut.edgesCtc = c8InGraph.edgesCtc ∧
    c8AsgOut.numStatesHmm = c8InGraph.numStatesHmm ∧ c8AsgOut.edgesHmm = c8InGraph.edgesHmm ∧
    c8AsgOut.numStatesWord = c8InGraph.numStatesWord ∧ c8AsgOut.edgesWord = c8InGraph.edgesWord :=
  c8_working_fields_cleared.1 256 2 false false c8InGraph c8AsgOut rfl

/-! ## Helper lemmas about the edge order and sorting -/

theorem edge_key_eq (e f : Edge) (h1 : e.source = f.source) (h2 : e.target = f.target)
    (h3 : e.label = f.label) (h4 : e.weight = f.weight) : e.key = f.key := by
  unfold Edge.key
  rw [h1, h2, h3, h4]

theorem edgeLE_iff (e f : Edge) : edgeLE e f ↔
    e.source < f.source ∨ e.source = f.source ∧
      (e.target < f.target ∨ e.target = f.target ∧
        toLex (e.label.key, e.weight) ≤ toLex (f.label.key, f.weight)) := by
  unfold edgeLE Edge.key
  rw [Prod.Lex.le_iff, Prod.Lex.le_iff]

theorem forall2_mem_right {α β : Type} {r : α → β → Prop} :
    ∀ {as : List α} {bs : List β}, List.Forall₂ r as bs → ∀ b ∈ bs, ∃ a ∈ as, r a b := by
  intro as bs h
  induction h with
  | nil => intro b hb; simp at hb
  | cons hr _ ih =>
      intro b hb
      rcases List.mem_cons.mp hb with rfl | hb
      · exact ⟨_, List.mem_cons_self _ _, hr⟩
      · rcases ih b hb with ⟨a, ha, har⟩
        exact ⟨a, List.mem_cons_of_mem _ ha, har⟩

theorem edgeLE_of_transfer (e f e2 f2 : Edge)
    (hs : e2.source = e.source) (ht : e2.target = e.target) (hw : e2.weight = e.weight)
    (hs2 : f2.source = f.source) (ht2 : f2.target = f.target) (hw2 : f2.weight = f.weight)
    (hle : edgeLE e f)
    (heq : e.source = f.source → e.target = f.target →
      e.label = f.label ∧ e2.label = f2.label) :
    edgeLE e2 f2 := by
  rcases (edgeLE_iff e f).mp hle with h | ⟨h1, h⟩
  · exact (edgeLE_iff e2 f2).mpr (Or.inl (by rw [hs, hs2]; exact h))
  · rcases h with h | ⟨h2, h3⟩
    · exact (edgeLE_iff e2 f2).mpr
        (Or.inr ⟨by rw [hs, hs2, h1], Or.inl (by rw [ht, ht2]; exact h)⟩)
    · rcases heq h1 h2 with ⟨hpre, hpost⟩
      have hwle : e.weight ≤ f.weight := by
        rcases (Prod.Lex.le_iff _ _).mp h3 with hlt | ⟨_, hle2⟩
        · rw [hpre] at hlt
          exact absurd hlt (lt_irrefl _)
        · exact hle2
      refine (edgeLE_iff e2 f2).mpr
        (Or.inr ⟨by rw [hs, hs2, h1], Or.inr ⟨by rw [ht, ht2, h2], ?_⟩⟩)
      exact (Prod.Lex.le_iff _ _).mpr (Or.inr ⟨by rw [hpost], by rw [hw, hw2]; exact hwle⟩)

/-- Label conversion preserves sortedness provided any two edges sharing
source and target carry the same label. -/
theorem labelConversion_sorted :
    ∀ (es es2 : List Edge), List.Sorted edgeLE es →
    (∀ e f, e ∈ es → f ∈ es → e.target = f.target → e.label = f.label) →
    labelConversion es = some es2 → List.Sorted edgeLE es2 := by
  intro es
  induction es with
  | nil =>
      intro es2 _ _ h
      simp only [labelConversion, Option.some.injEq] at h
      subst h
      exact List.sorted_nil
  | cons e es ih =>
      intro es2 hsorted hT h
      have hf2 := labelConversion_forall2 _ _ h
      rcases hf2 with _ | ⟨⟨hl, hs, ht, hw⟩, htail⟩
      rename_i e2 rest2
      simp only [labelConversion] at h
      cases hl0 : labelConversion1 e.label with
      | none => rw [hl0] at h; simp at h
      | some l =>
          rw [hl0] at h
          dsimp only at h
          cases hr : labelConversion es with
          | none => rw [hr] at h; simp at h
          | some rest =>
              rw [hr] at h
              rw [Option.map_some'] at h
              have h2 := Option.some.inj h
              have hrest2 : rest = rest2 := by
                have := congrArg List.tail h2
                simpa using this
              subst hrest2
              rcases List.sorted_cons.mp hsorted with ⟨hhead, htailsorted⟩
              have hrec : List.Sorted edgeLE rest := ih rest htailsorted
                (fun a b ha hb => hT a b (List.mem_cons_of_mem _ ha) (List.mem_cons_of_mem _ hb)) hr
              refine List.sorted_cons.mpr ⟨?_, hrec⟩
              intro f2 hf2mem
              rcases forall2_mem_right htail f2 hf2mem with ⟨f, hfmem, ⟨hlf, hsf, htf, hwf⟩⟩
              refine edgeLE_of_transfer e f e2 f2 hs ht hw hsf htf hwf (hhead f hfmem) ?_
              intro _ hteq
              have hpre : e.label = f.label :=
                hT e f (List.mem_cons_self _ _) (List.mem_cons_of_mem _ hfmem) hteq
              have hpost : e2.label = f2.label := by
                rw [hpre] at hl
                rw [hl] at hlf
                exact Option.some.inj hlf
              exact ⟨hpre, hpost⟩

/-- In an ASG edge list under construction, the target alone determines
the label. -/
def TargetDeterminesLabel (es : List Edge) : Prop :=
  ∀ e f, e ∈ es → f ∈ es → e.target = f.target → e.label = f.label

/-- Invariant of the ASG edge building: all targets are bounded by the
running counter, the stale separator anchor is bounded too, any edge
ending at the next separator target is a blank edge, and the target
determines the label. -/
def AsgInv (st : AsgBuildState) : Prop :=
  (∀ e ∈ st.edges, e.target ≤ st.curIdx) ∧
  st.trgtIdx ≤ st.curIdx ∧
  (∀ e ∈ st.edges, e.target = st.trgtIdx + 1 → e.label = blankLabel) ∧
  TargetDeterminesLabel st.edges

theorem asgEmitLabels_inv (repIndex len : Nat) :
    ∀ (labels : List PyLabel) (i : Nat) (st : AsgBuildState), AsgInv st →
      AsgInv (asgEmitLabels repIndex len i labels st) := by
  intro labels
  induction labels with
  | nil => intro i st h; exact h
  | cons lab rest ih =>
      intro i st h
      rcases h with ⟨h2, h3, h4, h5⟩
      apply ih (i + 1)
      unfold AsgInv
      dsimp only
      refine ⟨?_, by omega, ?_, ?_⟩
      · intro e he
        rcases List.mem_append.mp he with he | he
        · exact le_trans (h2 e he) (by omega)
        · rcases List.mem_singleton.mp he with rfl
          exact le_refl _
      · intro e he hteq
        rcases List.mem_append.mp he with he | he
        · have := h2 e he
          omega
        · rcases List.mem_singleton.mp he with rfl
          dsimp only at hteq
          omega
      · intro e f he hf hteq
        rcases List.mem_append.mp he with he | he <;>
          rcases List.mem_append.mp hf with hf | hf
        · exact h5 e f he hf hteq
        · rcases List.mem_singleton.mp hf with rfl
          have := h2 e he
          dsimp only at hteq
          omega
        · rcases List.mem_singleton.mp he with rfl
          have := h2 f hf
          dsimp only at hteq
          omega
        · rcases List.mem_singleton.mp he with rfl
          rcases List.mem_singleton.mp hf with rfl
          rfl

theorem asgEmitWords_inv (sep : Bool) (total : Nat) :
    ∀ (reps : List (List PyLabel)) (ri : Nat) (st : AsgBuildState), AsgInv st →
      AsgInv (asgEmitWords sep total ri reps st) := by
  intro reps
  induction reps with
  | nil => intro ri st h; exact h
  | cons ls rest ih =>
      intro ri st h
      have h1 : AsgInv (asgEmitLabels ri ls.length 0 ls st) :=
        asgEmitLabels_inv ri ls.length ls 0 st h
      apply ih (ri + 1)
      show AsgInv (if sep ∧ ri < total - 1 then _ else _)
      by_cases hc : sep ∧ ri < total - 1
      · rw [if_pos hc]
        rcases h1 with ⟨h2, h3, h4, h5⟩
        unfold AsgInv
        dsimp only
        refine ⟨?_, by omega, ?_, ?_⟩
        · intro e he
          rcases List.mem_append.mp he with he | he
          · exact le_trans (h2 e he) (by omega)
          · rcases List.mem_singleton.mp he with rfl
            dsimp only
            omega
        · intro e he hteq
          rcases List.mem_append.mp he with he | he
          · exact h4 e he hteq
          · rcases List.mem_singleton.mp he with rfl
            rfl
        · intro e f he hf hteq
          rcases List.mem_append.mp he with he | he <;>
            rcases List.mem_append.mp hf with hf | hf
          · exact h5 e f he hf hteq
          · rcases List.mem_singleton.mp hf with rfl
            exact h4 e he hteq
          · rcases List.mem_singleton.mp he with rfl
            exact (h4 f hf hteq.symm).symm
          · rcases List.mem_singleton.mp he with rfl
            rcases List.mem_singleton.mp hf with rfl
            rfl
      · rw [if_neg hc]
        exact h1

theorem asgLoopsPass_T (ns : Int) (es : List Edge) (h : TargetDeterminesLabel es) :
    TargetDeterminesLabel (asgLoopsPass ns es) := by
  unfold asgLoopsPass
  generalize pyRange1 ns = idxs
  induction idxs generalizing es with
  | nil => exact h
  | cons loopIdx rest ih =>
      simp only [List.foldl_cons]
      apply ih
      intro e f he hf hteq
      have origin : ∀ x : Edge,
          x ∈ es ++ (es.filter
            (fun e => e.target == loopIdx && e.label != epsLabel && e.label != silLabel)).map
              (fun e => { e with source := e.target, isLoop := true }) →
          ∃ x0, x0 ∈ es ∧ x.target = x0.target ∧ x.label = x0.label := by
        intro x hx
        rcases List.mem_append.mp hx with hx | hx
        · exact ⟨x, hx, rfl, rfl⟩
        · rcases List.mem_map.mp hx with ⟨x0, hx0, rfl⟩
          exact ⟨x0, List.mem_of_mem_filter hx0, rfl, rfl⟩
      rcases origin e he with ⟨e0, he0, het, hel⟩
      rcases origin f hf with ⟨f0, hf0, hft, hfl⟩
      rw [hel, hfl]
      exact h e0 f0 he0 hf0 (by rw [← het, ← hft, hteq])

/-- Membership-invariant properties transfer across the stable sort. -/
theorem pySortEdges_T (es : List Edge) (h : TargetDeterminesLabel es) :
    TargetDeterminesLabel (pySortEdges es) := by
  intro e f he hf
  have hp := List.perm_insertionSort edgeLE es
  exact h e f (hp.mem_iff.mp he) (hp.mem_iff.mp hf)

/-- C6: for every input and every topology, the finalized edge list is
sorted in the total lexicographic order on (source, target, label,
weight), and sorting a finalized list again leaves it unchanged — also
when label conversion was requested (in ASG the conversion runs after the
sort, but any two ASG edges sharing source and target carry the same
label, so the converted list stays sorted). -/
theorem c6_finalized_edges_sorted :
    (∀ (numLabels R : Int) (lc sep : Bool) (g g2 : Graph),
      g.edges = [] →
      asgRun numLabels R lc sep g = some g2 →
      List.Sorted edgeLE g2.edgesAsg ∧ pySortEdges g2.edgesAsg = g2.edgesAsg) ∧
    (∀ (lc : Bool) (g g2 : Graph), ctcRun lc g = some g2 →
      List.Sorted edgeLE g2.edgesCtc ∧ pySortEdges g2.edgesCtc = g2.edgesCtc) ∧
    (∀ (fuel : Nat) (lex : Lexicon) (K : Int) (stc : Bool) (ty : StateTying) (g g2 : Graph),
      hmmRun fuel lex K stc ty g = some g2 →
      List.Sorted edgeLE g2.edgesHmm ∧ pySortEdges g2.edgesHmm = g2.edgesHmm) := by
  refine ⟨?_, ?_, ?_⟩
  · intro numLabels R lc sep g g2 hempty h
    unfold asgRun at h
    rcases Option.map_eq_some'.mp h with ⟨es, hconv, rfl⟩
    have hInv0 : AsgInv
        { numStates := 0, curIdx := 0, srcIdx := 0, trgtIdx := 0, edges := g.edges } := by
      rw [hempty]
      exact ⟨fun e he => absurd he (List.not_mem_nil e),
        le_refl _, fun e he => absurd he (List.not_mem_nil e),
        fun e f he _ => absurd he (List.not_mem_nil e)⟩
    set st := asgEmitWords sep (asgReps numLabels R g.lemList).length 0
      (asgReps numLabels R g.lemList)
      { numStates := 0, curIdx := 0, srcIdx := 0, trgtIdx := 0, edges := g.edges } with hst
    have hInv := asgEmitWords_inv sep (asgReps numLabels R g.lemList).length
      (asgReps numLabels R g.lemList) 0 _ hInv0
    rw [← hst] at hInv
    have hT1 := asgLoopsPass_T st.numStates st.edges hInv.2.2.2
    have hT2 := pySortEdges_T _ hT1
    have hsorted : List.Sorted edgeLE (pySortEdges (asgLoopsPass st.numStates st.edges)) :=
      List.sorted_insertionSort edgeLE _
    have hes : List.Sorted edgeLE es := by
      unfold maybeLabelConversion at hconv
      by_cases hlc : lc
      · rw [if_pos hlc] at hconv
        exact labelConversion_sorted _ _ hsorted
          (fun e f he hf => hT2 e f he hf) hconv
      · rw [if_neg hlc] at hconv
        rcases Option.some.inj hconv with rfl
        exact hsorted
    exact ⟨hes, hes.insertionSort_eq⟩
  · intro lc g g2 h
    unfold ctcRun at h
    simp only [bind, Option.bind_eq_some] at h
    rcases h with ⟨⟨ns1, es1, finals⟩, _, h⟩
    rcases h with ⟨⟨ns2, es2⟩, _, h⟩
    rcases h with ⟨es3, _, h⟩
    rcases h with ⟨es4, _, h⟩
    rcases Option.some.inj h
    have hs : List.Sorted edgeLE (pySortEdges es4) := List.sorted_insertionSort edgeLE _
    exact ⟨hs, hs.insertionSort_eq⟩
  · intro fuel lex K stc ty g g2 h
    unfold hmmRun at h
    simp only [bind, Option.bind_eq_some] at h
    rcases h with ⟨st, _, h⟩
    rcases h with ⟨es3, _, h⟩
    rcases Option.some.inj h
    have hs : List.Sorted edgeLE (pySortEdges
      (hmmStringify (if stc then some ty else none)
        (hmmLoopsPass (alloExpand K (st.numStates + 1) st.edges).1 es3))) :=
      List.sorted_insertionSort edgeLE _
    exact ⟨hs, hs.insertionSort_eq⟩

/-- The concrete output of `Ctc.run` on the sentence "ab". -/
def c6CtcOut : Graph := (ctcRun false { lemList := ["ab"] }).getD { lemList := [] }

/-- Witness for C6: the CTC clause applied at a concrete input. -/
theorem c6_finalized_edges_sorted_witness :
    List.Sorted edgeLE c6CtcOut.edgesCtc ∧ pySortEdges c6CtcOut.edgesCtc = c6CtcOut.edgesCtc :=
  c6_finalized_edges_sorted.2.1 false { lemList := ["ab"] } c6CtcOut rfl

/-! ## State-contiguity infrastructure for claim C2 -/

/-- A state index is referenced by an edge list when some edge has it as
source or target. -/
def referenced (es : List Edge) (k : Int) : Prop :=
  ∃ e ∈ es, e.source = k ∨ e.target = k

/-- The used state indices are exactly 0 .. ns-1. -/
def StatesExact (ns : Int) (es : List Edge) : Prop :=
  ∀ k : Int, referenced es k ↔ (0 ≤ k ∧ k < ns)

/-- The maximum state index referenced by an edge list (0 on the empty
list). -/
def maxIdx (es : List Edge) : Int :=
  es.foldl (fun m e => max m (max e.source e.target)) 0

theorem referenced_append (a b : List Edge) (k : Int) :
    referenced (a ++ b) k ↔ referenced a k ∨ referenced b k := by
  unfold referenced
  constructor
  · rintro ⟨e, he, hk⟩
    rcases List.mem_append.mp he with he | he
    · exact Or.inl ⟨e, he, hk⟩
    · exact Or.inr ⟨e, he, hk⟩
  · rintro (⟨e, he, hk⟩ | ⟨e, he, hk⟩)
    · exact ⟨e, List.mem_append.mpr (Or.inl he), hk⟩
    · exact ⟨e, List.mem_append.mpr (Or.inr he), hk⟩

theorem referenced_singleton (e : Edge) (k : Int) :
    referenced [e] k ↔ (e.source = k ∨ e.target = k) := by
  unfold referenced
  constructor
  · rintro ⟨f, hf, hk⟩
    rcases List.mem_singleton.mp hf with rfl
    exact hk
  · intro hk
    exact ⟨e, List.mem_singleton.mpr rfl, hk⟩

theorem foldl_max_init_le :
    ∀ (es : List Edge) (a : Int), a ≤ es.foldl (fun m e => max m (max e.source e.target)) a := by
  intro es
  induction es with
  | nil => intro a; exact le_refl a
  | cons e es ih =>
      intro a
      exact le_trans (le_max_left _ _) (ih _)

theorem foldl_max_mem :
    ∀ (es : List Edge) (a : Int) (e : Edge), e ∈ es →
      max e.source e.target ≤ es.foldl (fun m e => max m (max e.source e.target)) a := by
  intro es
  induction es with
  | nil => intro a e he; exact absurd he (List.not_mem_nil e)
  | cons f es ih =>
      intro a e he
      rcases List.mem_cons.mp he with rfl | he
      · exact le_trans (le_max_right _ _) (foldl_max_init_le es _)
      · exact ih _ e he

theorem foldl_max_le :
    ∀ (es : List Edge) (a B : Int), a ≤ B →
      (∀ e ∈ es, max e.source e.target ≤ B) →
      es.foldl (fun m e => max m (max e.source e.target)) a ≤ B := by
  intro es
  induction es with
  | nil => intro a B h _; exact h
  | cons e es ih =>
      intro a B h hb
      refine ih _ B ?_ (fun f hf => hb f (List.mem_cons_of_mem _ hf))
      exact max_le h (hb e (List.mem_cons_self _ _))

/-- From the exact used-state set, the claim-form facts: the state count is
one plus the maximum referenced index, and no index below the maximum is
skipped. -/
theorem statesExact_claim (ns : Int) (es : List Edge) (h : StatesExact ns es) (hne : es ≠ []) :
    ns = 1 + maxIdx es ∧ ∀ k, 0 ≤ k → k ≤ maxIdx es → referenced es k := by
  have hbound : ∀ e ∈ es, e.source < ns ∧ e.target < ns ∧ 0 ≤ e.source ∧ 0 ≤ e.target := by
    intro e he
    have hs := (h e.source).mp ⟨e, he, Or.inl rfl⟩
    have ht := (h e.target).mp ⟨e, he, Or.inr rfl⟩
    exact ⟨hs.2, ht.2, hs.1, ht.1⟩
  have hpos : 0 < ns := by
    rcases List.exists_mem_of_ne_nil es hne with ⟨e, he⟩
    have := (hbound e he)
    omega
  have hmax_le : maxIdx es ≤ ns - 1 := by
    refine foldl_max_le es 0 (ns - 1) (by omega) ?_
    intro e he
    have := hbound e he
    omega
  have hrefele : referenced es (ns - 1) := (h (ns - 1)).mpr (by omega)
  have hle_max : ns - 1 ≤ maxIdx es := by
    rcases hrefele with ⟨e, he, hk⟩
    have := foldl_max_mem es 0 e he
    unfold maxIdx
    omega
  constructor
  · omega
  · intro k hk0 hkm
    exact (h k).mpr (by omega)

/-- Transfer of `referenced` across pointwise endpoint-preserving maps. -/
theorem referenced_of_forall2 (es es2 : List Edge)
    (h : List.Forall₂ (fun e e2 : Edge => e2.source = e.source ∧ e2.target = e.target) es es2)
    (k : Int) : referenced es2 k ↔ referenced es k := by
  induction h with
  | nil => exact Iff.rfl
  | cons hr hrest ih =>
      rename_i e e2 tl tl2
      constructor
      · rintro ⟨f, hf, hk⟩
        rcases List.mem_cons.mp hf with rfl | hf
        · exact ⟨e, List.mem_cons_self _ _, by rw [hr.1, hr.2] at hk; exact hk⟩
        · rcases ih.mp ⟨f, hf, hk⟩ with ⟨f0, hf0, hk0⟩
          exact ⟨f0, List.mem_cons_of_mem _ hf0, hk0⟩
      · rintro ⟨f, hf, hk⟩
        rcases List.mem_cons.mp hf with rfl | hf
        · exact ⟨e2, List.mem_cons_self _ _, by rw [hr.1, hr.2]; exact hk⟩
        · rcases ih.mpr ⟨f, hf, hk⟩ with ⟨f0, hf0, hk0⟩
          exact ⟨f0, List.mem_cons_of_mem _ hf0, hk0⟩

/-- `referenced` is invariant under permutation. -/
theorem referenced_perm (es es2 : List Edge) (h : es.Perm es2) (k : Int) :
    referenced es2 k ↔ referenced es k := by
  unfold referenced
  constructor
  · rintro ⟨e, he, hk⟩
    exact ⟨e, h.mem_iff.mpr he, hk⟩
  · rintro ⟨e, he, hk⟩
    exact ⟨e, h.mem_iff.mp he, hk⟩

theorem asgLoopsPass_refs (ns : Int) (es : List Edge) :
    ∀ k, referenced (asgLoopsPass ns es) k ↔ referenced es k := by
  unfold asgLoopsPass
  generalize pyRange1 ns = idxs
  induction idxs generalizing es with
  | nil => intro k; exact Iff.rfl
  | cons loopIdx rest ih =>
      intro k
      simp only [List.foldl_cons]
      rw [ih]
      rw [referenced_append]
      constructor
      · rintro (h | ⟨e, he, hk⟩)
        · exact h
        · rcases List.mem_map.mp he with ⟨e0, he0, rfl⟩
          exact ⟨e0, List.mem_of_mem_filter he0, Or.inr (by simpa using hk)⟩
      · exact Or.inl

/-- The chain invariant of the ASG edge building when inter-word
separation is disabled. -/
def AsgChainInv (st : AsgBuildState) : Prop :=
  0 ≤ st.curIdx ∧
  (st.curIdx = 0 → st.edges = [] ∧ st.numStates = 0) ∧
  (0 < st.curIdx → st.numStates = st.curIdx + 1 ∧
    ∀ k, referenced st.edges k ↔ (0 ≤ k ∧ k ≤ st.curIdx))

theorem referenced_nil (k : Int) : ¬ referenced [] k := by
  rintro ⟨e, he, _⟩
  exact absurd he (List.not_mem_nil e)

theorem asgEmitLabels_chain (repIndex len : Nat) :
    ∀ (labels : List PyLabel) (i : Nat) (st : AsgBuildState), AsgChainInv st →
      AsgChainInv (asgEmitLabels repIndex len i labels st) := by
  intro labels
  induction labels with
  | nil => intro i st h; exact h
  | cons lab rest ih =>
      intro i st h
      rcases h with ⟨hcur0, h0, hpos⟩
      apply ih (i + 1)
      refine ⟨by dsimp only; omega, ?_, ?_⟩
      · dsimp only
        intro habs
        exact absurd habs (by omega)
      · dsimp only
        intro _
        constructor
        · by_cases hc : st.curIdx = 0
          · rw [if_pos hc]
            omega
          · rw [if_neg hc]
            rcases hpos (by omega) with ⟨hns, _⟩
            omega
        · intro k
          rw [referenced_append, referenced_singleton]
          dsimp only
          by_cases hc : st.curIdx = 0
          · rcases h0 hc with ⟨hemp, _⟩
            rw [hemp]
            have := referenced_nil k
            constructor
            · rintro (habs | hk)
              · exact absurd habs this
              · omega
            · intro hk
              right
              omega
          · rcases hpos (by omega) with ⟨_, hrefs⟩
            rw [hrefs k]
            omega

theorem asgEmitWords_chain (total : Nat) :
    ∀ (reps : List (List PyLabel)) (ri : Nat) (st : AsgBuildState), AsgChainInv st →
      AsgChainInv (asgEmitWords false total ri reps st) := by
  intro reps
  induction reps with
  | nil => intro ri st h; exact h
  | cons ls rest ih =>
      intro ri st h
      have h1 := asgEmitLabels_chain ri ls.length ls 0 st h
      apply ih (ri + 1)
      rw [if_neg (by rintro ⟨hh, _⟩; exact Bool.false_ne_true hh)]
      exact h1

theorem asgChainInv_statesExact (st : AsgBuildState) (h : AsgChainInv st) :
    StatesExact st.numStates st.edges := by
  rcases h with ⟨hcur0, h0, hpos⟩
  by_cases hc : st.curIdx = 0
  · rcases h0 hc with ⟨hemp, hns⟩
    intro k
    rw [hemp, hns]
    have := referenced_nil k
    constructor
    · intro habs
      exact absurd habs this
    · omega
  · rcases hpos (by omega) with ⟨hns, hrefs⟩
    intro k
    rw [hrefs k, hns]
    omega

/-- Basic invariant of the CTC lattice loop: the used states are exactly
0 .. 2*cur (once anything was consumed), and `num_states` is `2*cur`
plus a bump bit that is set only after something was consumed. -/
def CtcBasic (st : CtcState) : Prop :=
  0 ≤ st.curIdx ∧
  (st.numStates = 2 * st.curIdx ∨ st.numStates = 2 * st.curIdx + 1) ∧
  (st.numStates = 2 * st.curIdx + 1 → 0 < st.curIdx) ∧
  (∀ k, referenced st.edges k ↔ (0 < st.curIdx ∧ 0 ≤ k ∧ k ≤ 2 * st.curIdx))

theorem ctcEmitChars_spec (wi : Nat) (seq : List Char) :
    ∀ (chars : List Char) (i : Nat) (st : CtcState), CtcBasic st →
      CtcBasic (ctcEmitChars wi seq i chars st) ∧
      (ctcEmitChars wi seq i chars st).curIdx = st.curIdx + chars.length ∧
      ((chars ≠ [] ∧ st.curIdx = 0) →
        (ctcEmitChars wi seq i chars st).numStates =
          2 * (ctcEmitChars wi seq i chars st).curIdx + 1) ∧
      (0 < st.curIdx →
        (ctcEmitChars wi seq i chars st).numStates -
          2 * (ctcEmitChars wi seq i chars st).curIdx =
        st.numStates - 2 * st.curIdx) := by
  intro chars
  induction chars with
  | nil =>
      intro i st h
      refine ⟨h, by simp [ctcEmitChars], by simp, fun _ => rfl⟩
  | cons c rest ih =>
      intro i st h
      rcases h with ⟨hc0, hb, hb1, hrefs⟩
      set st1 : CtcState :=
        { numStates := (if st.curIdx = 0 then st.numStates + 1 else st.numStates) + 2,
          curIdx := st.curIdx + 1,
          edges :=
            (if some c ≠ (if i = 0 then seq.getLast? else seq[i-1]?) ∨ seq.length = 1 then
              st.edges ++
                [{ source := 2 * st.curIdx, target := 2 * st.curIdx + 2,
                   label := .pyStr (String.mk [c]), idx := some st.curIdx,
                   idxWordInSentence := some (wi : Int), idxPhonInWord := some (i : Int) }]
            else st.edges) ++
            [{ source := 2 * st.curIdx, target := 2 * st.curIdx + 2 - 1, label := blankLabel },
             { source := 2 * st.curIdx + 1, target := 2 * st.curIdx + 2,
               label := .pyStr (String.mk [c]), idx := some st.curIdx,
               idxWordInSentence := some (wi : Int), idxPhonInWord := some (i : Int) }] } with hst1
      have hrefs1 : ∀ k, referenced st1.edges k ↔
          (referenced st.edges k ∨ k = 2 * st.curIdx ∨ k = 2 * st.curIdx + 1 ∨
            k = 2 * st.curIdx + 2) := by
        intro k
        rw [hst1]
        dsimp only
        rw [referenced_append]
        constructor
        · rintro (hin | hk)
          · by_cases hcond : some c ≠ (if i = 0 then seq.getLast? else seq[i-1]?) ∨ seq.length = 1
            · rw [if_pos hcond] at hin
              rcases (referenced_append _ _ k).mp hin with hin | hin
              · exact Or.inl hin
              · rcases (referenced_singleton _ k).mp hin with hk | hk
                all_goals dsimp only at hk
                · right; left; omega
                · right; right; right; omega
            · rw [if_neg hcond] at hin
              exact Or.inl hin
          · rcases hk with ⟨e, he, hk⟩
            rcases List.mem_cons.mp he with rfl | he
            · rcases hk with hk | hk
              all_goals dsimp only at hk
              · right; left; omega
              · right; right; left; omega
            · rcases List.mem_singleton.mp he with rfl
              rcases hk with hk | hk
              all_goals dsimp only at hk
              · right; right; left; omega
              · right; right; right; omega
        · rintro (hin | hk | hk | hk)
          · left
            by_cases hcond : some c ≠ (if i = 0 then seq.getLast? else seq[i-1]?) ∨ seq.length = 1
            · rw [if_pos hcond]
              exact (referenced_append _ _ k).mpr (Or.inl hin)
            · rw [if_neg hcond]
              exact hin
          · right
            exact ⟨_, List.mem_cons_self _ _, Or.inl (by dsimp only; omega)⟩
          · right
            exact ⟨_, List.mem_cons_of_mem _ (List.mem_singleton.mpr rfl),
              Or.inl (by dsimp only; omega)⟩
          · right
            exact ⟨_, List.mem_cons_of_mem _ (List.mem_singleton.mpr rfl),
              Or.inr (by dsimp only; omega)⟩
      have hns0 : st.curIdx = 0 → st.numStates = 0 := by
        intro hcz
        rcases hb with hb | hb
        · omega
        · have := hb1 hb
          omega
      have hbasic1 : CtcBasic st1 := by
        refine ⟨by rw [hst1]; dsimp only; omega, ?_, ?_, ?_⟩
        · rw [hst1]
          dsimp only
          by_cases hcz : st.curIdx = 0
          · rw [if_pos hcz]
            have := hns0 hcz
            omega
          · rw [if_neg hcz]
            omega
        · rw [hst1]
          dsimp only
          intro _
          omega
        · intro k
          rw [hrefs1 k, hrefs k]
          show _ ↔ (0 < st1.curIdx ∧ 0 ≤ k ∧ k ≤ 2 * st1.curIdx)
          rw [hst1]
          dsimp only
          omega
      have hout := ih (i + 1) st1 hbasic1
      rw [show ctcEmitChars wi seq i (c :: rest) st = ctcEmitChars wi seq (i + 1) rest st1 from rfl]
      have hcur1 : 0 < st1.curIdx := by rw [hst1]; dsimp only; omega
      have hdiff := hout.2.2.2 hcur1
      refine ⟨hout.1, ?_, ?_, ?_⟩
      · rw [hout.2.1, hst1]
        dsimp only [List.length_cons]
        push_cast
        omega
      · rintro ⟨-, hcz⟩
        have hns1 : st1.numStates = 2 * st1.curIdx + 1 := by
          rw [hst1]
          dsimp only
          rw [if_pos hcz]
          have := hns0 hcz
          omega
        omega
      · intro hpos
        have hns1 : st1.numStates - 2 * st1.curIdx = st.numStates - 2 * st.curIdx := by
          rw [hst1]
          dsimp only
          rw [if_neg (by omega)]
          omega
        omega

theorem ctcEmitWords_spec :
    ∀ (words : List String) (idx total : Nat) (st : CtcState),
      idx + words.length = total → CtcBasic st →
      CtcBasic (ctcEmitWords total idx words st) ∧
      (∀ w, words.getLast? = some w → w.data ≠ [] →
        0 < (ctcEmitWords total idx words st).curIdx ∧
        ((ctcEmitWords total idx words st).numStates =
            2 * (ctcEmitWords total idx words st).curIdx →
          2 ≤ (ctcEmitWords total idx words st).curIdx)) := by
  intro words
  induction words with
  | nil =>
      intro idx total st _ h
      exact ⟨h, fun w hw => by simp at hw⟩
  | cons w ws ih =>
      intro idx total st htotal h
      have hchars := ctcEmitChars_spec idx w.data w.data 0 st h
      cases ws with
      | nil =>
          have hnosep : ¬ (idx < total - 1) := by
            simp only [List.length_cons, List.length_nil] at htotal
            omega
          have hstep : ctcEmitWords total idx [w] st =
              ctcEmitChars idx w.data 0 w.data st := by
            show (if idx < total - 1 then _ else _) = _
            rw [if_neg hnosep]
          rw [hstep]
          refine ⟨hchars.1, ?_⟩
          intro w2 hw2 hdata
          have hw2w : w = w2 := by simpa using hw2
          subst hw2w
          have hlen : 0 < w.data.length := List.length_pos.mpr hdata
          constructor
          · rcases h with ⟨hc0, _, _, _⟩
            rw [hchars.2.1]
            omega
          · intro hb0
            by_cases hcz : st.curIdx = 0
            · have := hchars.2.2.1 ⟨hdata, hcz⟩
              omega
            · rcases h with ⟨hc0, _, _, _⟩
              rw [hchars.2.1]
              omega
      | cons w2 ws2 =>
          have hsep : idx < total - 1 := by
            simp only [List.length_cons] at htotal
            omega
          set stc := ctcEmitChars idx w.data 0 w.data st with hstc
          set st2 : CtcState :=
            { numStates := stc.numStates + 2, curIdx := stc.curIdx + 1,
              edges := stc.edges ++
                [ { source := 2 * stc.curIdx, target := 2 * stc.curIdx + 1, label := blankLabel },
                  { source := 2 * stc.curIdx + 1, target := 2 * stc.curIdx + 2, label := silLabel },
                  { source := 2 * stc.curIdx, target := 2 * stc.curIdx + 2, label := silLabel } ] } with hst2
          have hstep : ctcEmitWords total idx (w :: w2 :: ws2) st =
              ctcEmitWords total (idx + 1) (w2 :: ws2) st2 := by
            show ctcEmitWords total (idx + 1) (w2 :: ws2) (if idx < total - 1 then _ else _) = _
            rw [if_pos hsep]
          have hbc := hchars.1
          have hbasic2 : CtcBasic st2 := by
            rcases hbc with ⟨hc0, hb, hb1, hrefs⟩
            refine ⟨by rw [hst2]; dsimp only; omega, ?_, ?_, ?_⟩
            · rw [hst2]
              dsimp only
              omega
            · rw [hst2]
              dsimp only
              intro _
              omega
            · intro k
              rw [hst2]
              dsimp only
              rw [referenced_append]
              constructor
              · rintro (hin | ⟨e, he, hk⟩)
                · have := (hrefs k).mp hin
                  omega
                · rcases List.mem_cons.mp he with rfl | he
                  · dsimp only at hk
                    omega
                  rcases List.mem_cons.mp he with rfl | he
                  · dsimp only at hk
                    omega
                  · rcases List.mem_singleton.mp he with rfl
                    dsimp only at hk
                    omega
              · intro hk
                by_cases hkle : k ≤ 2 * stc.curIdx ∧ 0 < stc.curIdx
                · exact Or.inl ((hrefs k).mpr (by omega))
                · right
                  by_cases hk1 : k = 2 * stc.curIdx
                  · exact ⟨_, List.mem_cons_self _ _, Or.inl (by dsimp only; omega)⟩
                  · by_cases hk2 : k = 2 * stc.curIdx + 1
                    · exact ⟨_, List.mem_cons_of_mem _ (List.mem_cons_self _ _),
                        Or.inl (by dsimp only; omega)⟩
                    · refine ⟨_, List.mem_cons_of_mem _ (List.mem_cons_of_mem _
                        (List.mem_singleton.mpr rfl)), Or.inr (by dsimp only; omega)⟩
          have hrec := ih (idx + 1) total st2
            (by simp only [List.length_cons] at htotal ⊢; omega) hbasic2
          rw [hstep]
          refine ⟨hrec.1, ?_⟩
          intro wl hwl hdata
          have hwl2 : (w2 :: ws2).getLast? = some wl := by
            rw [← hwl]
            exact List.getLast?_cons_cons.symm
          exact hrec.2 wl hwl2 hdata

theorem ctcTail_statesExact (lemList : List String) (st : CtcState)
    (hBasic : CtcBasic st) (hcur : 0 < st.curIdx)
    (hb0 : st.numStates = 2 * st.curIdx → 2 ≤ st.curIdx) :
    ∀ ns1 es1 finals, ctcTail lemList st = some (ns1, es1, finals) →
      StatesExact ns1 es1 ∧ finals ≠ [] ∧ (∀ f ∈ finals, 0 ≤ f ∧ f < ns1) := by
  intro ns1 es1 finals h
  rcases hBasic with ⟨hc0, hb, hb1, hrefs⟩
  unfold ctcTail at h
  cases hlast : lemList.getLast? with
  | none => rw [hlast] at h; simp at h
  | some lastWord =>
      rw [hlast] at h
      dsimp only at h
      cases hlc : lastWord.data.getLast? with
      | none => rw [hlc] at h; simp at h
      | some lastChar =>
          rw [hlc] at h
          dsimp only at h
          rcases Option.some.inj h with h2
          have hns1 : ns1 = st.numStates + 3 := (congrArg (fun p => p.1) h2).symm
          have hes1 : es1 = st.edges ++
              [ { source := st.numStates - 3, target := st.numStates,
                  label := blankLabel, weight := 1 },
                { source := st.numStates + 1, target := st.numStates + 2,
                  label := blankLabel, weight := 1 },
                { source := st.numStates, target := st.numStates + 1,
                  label := .pyStr (String.mk [lastChar]), weight := 1 } ] := by
            have := congrArg (fun p => p.2.1) h2
            exact this.symm
          have hfin : finals = [st.numStates - 1, st.numStates + 3 - 1] := by
            have := congrArg (fun p => p.2.2) h2
            exact this.symm
          have hMbound : st.numStates - 3 + 3 ≤ st.numStates + 2 ∧ 0 ≤ st.numStates - 3 + 3 := by
            omega
          refine ⟨?_, ?_, ?_⟩
          · intro k
            rw [hes1, hns1, referenced_append]
            have hsplit : st.numStates - 3 ≥ 0 := by
              rcases hb with hb | hb
              · have := hb0 hb
                omega
              · omega
            constructor
            · rintro (hin | ⟨e, he, hk⟩)
              · have := (hrefs k).mp hin
                omega
              · rcases List.mem_cons.mp he with rfl | he
                · dsimp only at hk
                  omega
                rcases List.mem_cons.mp he with rfl | he
                · dsimp only at hk
                  omega
                · rcases List.mem_singleton.mp he with rfl
                  dsimp only at hk
                  omega
            · intro hk
              by_cases hkle : k ≤ 2 * st.curIdx
              · exact Or.inl ((hrefs k).mpr (by omega))
              · right
                by_cases hk1 : k = st.numStates
                · exact ⟨_, List.mem_cons_self _ _, Or.inr (by dsimp only; omega)⟩
                · by_cases hk2 : k = st.numStates + 1
                  · exact ⟨_, List.mem_cons_of_mem _ (List.mem_cons_self _ _),
                      Or.inl (by dsimp only; omega)⟩
                  · by_cases hk3 : k = st.numStates + 2
                    · exact ⟨_, List.mem_cons_of_mem _ (List.mem_cons_self _ _),
                        Or.inr (by dsimp only; omega)⟩
                    · exfalso
                      omega
          · rw [hfin]
            simp
          · intro f hf
            rw [hfin] at hf
            rcases List.mem_cons.mp hf with rfl | hf
            · constructor
              · rcases hb with hb | hb
                · omega
                · omega
              · omega
            · rcases List.mem_singleton.mp hf with rfl
              omega

/-- One re-routing step of the final-state unification keeps the used
states between 0 .. ns-1 and 0 .. ns, and adds state ns. -/
theorem ctcUnify_step_refs (ns2 : Int) (es : List Edge) (f : Int) (out : List Edge)
    (hf : 0 ≤ f ∧ f < ns2 - 1)
    (hlow : ∀ k, 0 ≤ k ∧ k < ns2 - 1 → referenced es k)
    (hhigh : ∀ k, referenced es k → 0 ≤ k ∧ k ≤ ns2 - 1)
    (h : (match es.filter (fun e => e.target == f) with
          | [] => none
          | first :: restIncoming =>
              let node : Edge := { source := f, target := ns2 - 1, label := first.label }
              let dups := (first :: restIncoming).map (fun e => { e with target := ns2 - 1 })
              some (es ++ [node] ++ dups)) = some out) :
    (∀ k, 0 ≤ k ∧ k < ns2 - 1 → referenced out k) ∧
    (∀ k, referenced out k → 0 ≤ k ∧ k ≤ ns2 - 1) ∧
    referenced out (ns2 - 1) := by
  cases hfil : es.filter (fun e => e.target == f) with
  | nil => rw [hfil] at h; simp at h
  | cons first restIncoming =>
      rw [hfil] at h
      dsimp only at h
      rcases Option.some.inj h with rfl
      refine ⟨?_, ?_, ?_⟩
      · intro k hk
        rw [referenced_append]
        exact Or.inl ((referenced_append _ _ k).mpr (Or.inl (hlow k hk)))
      · intro k hk
        rcases (referenced_append _ _ k).mp hk with hk | hk
        · rcases (referenced_append _ _ k).mp hk with hk | hk
          · exact hhigh k hk
          · rcases (referenced_singleton _ k).mp hk with hk | hk
            · dsimp only at hk
              omega
            · dsimp only at hk
              omega
        · rcases hk with ⟨e, he, hk⟩
          rcases List.mem_map.mp he with ⟨e0, he0, rfl⟩
          have he0mem : e0 ∈ es := List.mem_of_mem_filter (hfil ▸ he0)
          have hsrc := hhigh e0.source ⟨e0, he0mem, Or.inl rfl⟩
          rcases hk with hk | hk
          · dsimp only at hk
            omega
          · dsimp only at hk
            omega
      · rw [referenced_append]
        left
        rw [referenced_append]
        right
        rw [referenced_singleton]
        right
        rfl

/-- The tail of the unification fold only appends edges bounded by ns-1
and keeps everything already referenced. -/
theorem ctcUnify_fold_refs (ns2 : Int) :
    ∀ (fs : List Int) (es out : List Edge),
      (∀ f ∈ fs, 0 ≤ f ∧ f < ns2 - 1) →
      (∀ k, 0 ≤ k ∧ k < ns2 - 1 → referenced es k) →
      (∀ k, referenced es k → 0 ≤ k ∧ k ≤ ns2 - 1) →
      (List.foldlM (fun (es : List Edge) fstate =>
          match es.filter (fun e => e.target == fstate) with
          | [] => none
          | first :: restIncoming =>
              let node : Edge := { source := fstate, target := ns2 - 1, label := first.label }
              let dups := (first :: restIncoming).map (fun e => { e with target := ns2 - 1 })
              some (es ++ [node] ++ dups)) es fs) = some out →
      (∀ k, 0 ≤ k ∧ k < ns2 - 1 → referenced out k) ∧
      (∀ k, referenced out k → 0 ≤ k ∧ k ≤ ns2 - 1) ∧
      (referenced es (ns2 - 1) → referenced out (ns2 - 1)) ∧
      (fs ≠ [] → referenced out (ns2 - 1)) := by
  intro fs
  induction fs with
  | nil =>
      intro es out _ hlow hhigh h
      simp only [List.foldlM_nil] at h
      rcases Option.some.inj h with rfl
      exact ⟨hlow, hhigh, fun hk => hk, fun habs => absurd rfl habs⟩
  | cons f fs ih =>
      intro es out hfs hlow hhigh h
      rw [List.foldlM_cons] at h
      cases hstep : (match es.filter (fun e => e.target == f) with
          | [] => (none : Option (List Edge))
          | first :: restIncoming =>
              some (es ++ [({ source := f, target := ns2 - 1, label := first.label } : Edge)] ++
                (first :: restIncoming).map (fun e : Edge => { e with target := ns2 - 1 }))) with
      | none =>
          rw [hstep] at h
          simp at h
      | some es2 =>
          rw [hstep] at h
          simp only [Option.bind_some] at h
          have hs := ctcUnify_step_refs ns2 es f es2
            (hfs f (List.mem_cons_self _ _)) hlow hhigh hstep
          have hrest := ih es2 out (fun f2 hf2 => hfs f2 (List.mem_cons_of_mem _ hf2))
            hs.1 hs.2.1 h
          exact ⟨hrest.1, hrest.2.1, fun _ => hrest.2.2.1 hs.2.2,
            fun _ => hrest.2.2.1 hs.2.2⟩

theorem ctcUnify_statesExact (ns : Int) (es : List Edge) (finals : List Int)
    (h : StatesExact ns es) (hne : finals ≠ []) (hf : ∀ f ∈ finals, 0 ≤ f ∧ f < ns) :
    ∀ ns2 es2, ctcUnify ns es finals = some (ns2, es2) → StatesExact ns2 es2 := by
  intro ns2 es2 hu
  unfold ctcUnify at hu
  dsimp only at hu
  split at hu
  · rcases Option.some.inj hu with h2
    have : ns2 = ns ∧ es2 = es := ⟨(congrArg Prod.fst h2).symm, (congrArg Prod.snd h2).symm⟩
    rcases this with ⟨rfl, rfl⟩
    exact h
  · rcases Option.map_eq_some'.mp hu with ⟨out, hfold, heq⟩
    have hns2 : ns2 = ns + 1 := (congrArg Prod.fst heq).symm
    have hes2 : es2 = out := (congrArg Prod.snd heq).symm
    subst hns2
    subst hes2
    have hff : ∀ f ∈ finals, 0 ≤ f ∧ f < (ns + 1) - 1 := by
      intro f hfm
      have := hf f hfm
      omega
    have hlow : ∀ k, 0 ≤ k ∧ k < (ns + 1) - 1 → referenced es k := by
      intro k hk
      exact (h k).mpr (by omega)
    have hhigh : ∀ k, referenced es k → 0 ≤ k ∧ k ≤ (ns + 1) - 1 := by
      intro k hk
      have := (h k).mp hk
      omega
    have hr := ctcUnify_fold_refs (ns + 1) finals es es2 hff hlow hhigh hfold
    intro k
    constructor
    · intro hk
      have := hr.2.1 k hk
      omega
    · intro hk
      by_cases hkn : k = ns
      · subst hkn
        have := hr.2.2.2 hne
        simpa using this
      · exact hr.1 k (by omega)

theorem ctcLoopsPass_refs :
    ∀ (idxs : List Int) (es out : List Edge),
      (List.foldlM (fun (es : List Edge) loopIdx =>
        match es.filter (fun e => e.target == loopIdx) with
        | [] => none
        | first :: _ =>
            some (es ++ [{ first with source := first.target, isLoop := true }])) es idxs) = some out →
      ∀ k, referenced out k ↔ referenced es k := by
  intro idxs
  induction idxs with
  | nil =>
      intro es out h k
      simp only [List.foldlM_nil] at h
      rcases Option.some.inj h with rfl
      exact Iff.rfl
  | cons loopIdx rest ih =>
      intro es out h k
      rw [List.foldlM_cons] at h
      cases hstep : (match es.filter (fun e => e.target == loopIdx) with
        | [] => (none : Option (List Edge))
        | first :: _ =>
            some (es ++ [{ first with source := first.target, isLoop := true }])) with
      | none =>
          rw [hstep] at h
          exact absurd h (by simp [Option.bind])
      | some es2 =>
          rw [hstep] at h
          rw [ih es2 out h k]
          cases hfil : es.filter (fun e => e.target == loopIdx) with
          | nil =>
              rw [hfil] at hstep
              dsimp only at hstep
              exact Option.noConfusion hstep
          | cons first rest2 =>
              rw [hfil] at hstep
              dsimp only at hstep
              rcases Option.some.inj hstep with rfl
              rw [referenced_append, referenced_singleton]
              have hfmem : first ∈ es := List.mem_of_mem_filter (hfil ▸ List.mem_cons_self _ _)
              constructor
              · rintro (hk | hk | hk)
                · exact hk
                · exact ⟨first, hfmem, Or.inr (by simpa using hk)⟩
                · exact ⟨first, hfmem, Or.inr (by simpa using hk)⟩
              · exact Or.inl

theorem maybeLabelConversion_refs (lc : Bool) (es es2 : List Edge)
    (h : maybeLabelConversion lc es = some es2) (k : Int) :
    referenced es2 k ↔ referenced es k := by
  unfold maybeLabelConversion at h
  by_cases hlc : lc
  · rw [if_pos hlc] at h
    refine referenced_of_forall2 es es2 ((labelConversion_forall2 es es2 h).imp ?_) k
    rintro e e2 ⟨_, hs, ht, _⟩
    exact ⟨hs, ht⟩
  · rw [if_neg hlc] at h
    rcases Option.some.inj h with rfl
    exact Iff.rfl

theorem pySortEdges_refs (es : List Edge) (k : Int) :
    referenced (pySortEdges es) k ↔ referenced es k :=
  (referenced_perm (pySortEdges es) es (List.perm_insertionSort edgeLE es) k).symm

theorem ctcRun_statesExact (lc : Bool) (g g2 : Graph)
    (hempty : g.edges = []) (h : ctcRun lc g = some g2) :
    StatesExact g2.numStatesCtc g2.edgesCtc := by
  unfold ctcRun at h
  simp only [bind, Option.bind_eq_some] at h
  rcases h with ⟨⟨ns1, es1, finals⟩, h1, h⟩
  rcases h with ⟨⟨ns2, es2⟩, h2, h⟩
  rcases h with ⟨es3, h3, h⟩
  rcases h with ⟨es4, h4, h⟩
  rcases Option.some.inj h with rfl
  show StatesExact ns2 (pySortEdges es4)
  have hbasic0 : CtcBasic { numStates := 0, curIdx := 0, edges := g.edges } := by
    rw [hempty]
    unfold CtcBasic
    dsimp only
    refine ⟨le_refl 0, Or.inl (by omega), by intro habs; omega, ?_⟩
    intro k
    constructor
    · intro habs
      exact absurd habs (referenced_nil k)
    · intro habs
      omega
  have hwords := ctcEmitWords_spec g.lemList 0 g.lemList.length
    { numStates := 0, curIdx := 0, edges := g.edges } (by simp) hbasic0
  have hlastpair : ∃ lw, g.lemList.getLast? = some lw ∧ lw.data ≠ [] := by
    unfold ctcTail at h1
    cases hl : g.lemList.getLast? with
    | none => rw [hl] at h1; simp at h1
    | some lw =>
        rw [hl] at h1
        dsimp only at h1
        cases hl2 : lw.data.getLast? with
        | none => rw [hl2] at h1; simp at h1
        | some c =>
            refine ⟨lw, rfl, ?_⟩
            intro hd
            rw [hd] at hl2
            simp at hl2
  rcases hlastpair with ⟨lw, hlw, hlwne⟩
  have hG := hwords.2 lw hlw hlwne
  have htail := ctcTail_statesExact g.lemList _ hwords.1 hG.1 hG.2 ns1 es1 finals h1
  have hunify := ctcUnify_statesExact ns1 es1 finals htail.1 htail.2.1 htail.2.2 ns2 es2 h2
  have hloops : ∀ k, referenced es3 k ↔ referenced es2 k := by
    intro k
    exact ctcLoopsPass_refs (pyRange1 (ns2 - 1)) es2 es3 h3 k
  intro k
  rw [pySortEdges_refs es4 k, maybeLabelConversion_refs lc es3 es4 h4 k, hloops k]
  exact hunify k

/-- Appending one edge with endpoints inside `[0, b]` to a list that
references exactly `[0, a]` references exactly `[0, b]`, provided the new
upper end (if any) is hit by the new edge. -/
theorem refs_snoc (es : List Edge) (e : Edge) (a b : Int)
    (hrefs : ∀ k, referenced es k ↔ (0 ≤ k ∧ k ≤ a))
    (hs : 0 ≤ e.source ∧ e.source ≤ b)
    (ht : 0 ≤ e.target ∧ e.target ≤ b)
    (hab : a ≤ b ∧ b ≤ a + 1)
    (hhit : b = a + 1 → e.source = b ∨ e.target = b) :
    ∀ k, referenced (es ++ [e]) k ↔ (0 ≤ k ∧ k ≤ b) := by
  intro k
  rw [referenced_append, referenced_singleton, hrefs k]
  by_cases hb : b = a + 1
  · rcases hhit hb with h | h <;> omega
  · omega

/-- Invariant of the HMM word/variant loops between phoneme chains: the
referenced states are exactly `0 .. num_states`, and the split/merge
bookkeeping nodes and a bound `target_node` all lie in that range. -/
def HmmPhase (st : HmmState) : Prop :=
  0 ≤ st.numStates ∧
  (∀ k, referenced st.edges k ↔ (0 ≤ k ∧ k ≤ st.numStates)) ∧
  (∀ t, st.targetNode = some t → 0 ≤ t ∧ t ≤ st.numStates) ∧
  0 ≤ st.splitNode ∧ st.splitNode ≤ st.numStates ∧
  0 ≤ st.mergeNode ∧ st.mergeNode ≤ st.numStates

/-- In chain mode (a single pronunciation variant, or the first variant of
several) one phoneme step appends the edge `(ns, ns + 1)` and increments
`num_states`, preserving the phase invariant. -/
theorem hmmPhonStep_chain (wi li pdl : Nat) (lem : List String) (score : Int)
    (pi : Nat) (phon : String) (st : HmmState)
    (hchain : pdl = 1 ∨ li = 0) (hp : HmmPhase st) :
    HmmPhase (hmmPhonStep wi li pdl lem score pi phon st) ∧
    (hmmPhonStep wi li pdl lem score pi phon st).numStates = st.numStates + 1 := by
  rcases hp with ⟨h0, hrefs, htn, hs0, hs1, hm0, hm1⟩
  unfold hmmPhonStep
  dsimp only
  rcases hchain with hch | hch
  all_goals
    split_ifs <;>
      first
        | omega
        | (refine ⟨⟨by dsimp only; omega,
              refs_snoc st.edges _ st.numStates (st.numStates + 1) hrefs
                (by dsimp only; omega) (by dsimp only; omega)
                (by omega) (by dsimp only; intro _; right; rfl),
              ?_, by dsimp only; omega, by dsimp only; omega,
              by dsimp only; omega, by dsimp only; omega⟩, rfl⟩
           intro t htt
           have := Option.some.inj htt
           dsimp only at this ⊢
           omega)
/-- In chain mode a whole phoneme chain preserves the phase invariant and
only grows `num_states`. -/
theorem hmmEmitPhons_chain (wi li pdl : Nat) (lem : List String) (score : Int)
    (hchain : pdl = 1 ∨ li = 0) :
    ∀ (rest : List String) (pi : Nat) (st : HmmState), HmmPhase st →
      HmmPhase (hmmEmitPhons wi li pdl lem score pi rest st) ∧
      st.numStates ≤ (hmmEmitPhons wi li pdl lem score pi rest st).numStates := by
  intro rest
  induction rest with
  | nil => intro pi st hp; exact ⟨hp, le_refl _⟩
  | cons phon rest2 ih =>
      intro pi st hp
      have hstep := hmmPhonStep_chain wi li pdl lem score pi phon st hchain hp
      have hrec := ih (pi + 1) (hmmPhonStep wi li pdl lem score pi phon st) hstep.1
      have h2 := hstep.2
      exact ⟨hrec.1, le_trans (by omega) hrec.2⟩

/-- In variant mode (a later pronunciation variant) one phoneme step
reduces to the third branch of the source's case split. -/
theorem hmmPhonStep_var (wi li pdl : Nat) (lem : List String) (score : Int)
    (pi : Nat) (phon : String) (st : HmmState) (hpdl : pdl ≠ 1) (hli : li ≠ 0) :
    hmmPhonStep wi li pdl lem score pi phon st =
      { numStates := if pi ≠ 0 then st.numStates + 1 else st.numStates,
        splitNode := st.splitNode,
        mergeNode := st.mergeNode,
        targetNode := some (if pi = lem.length - 1 then st.mergeNode
                            else (if pi ≠ 0 then st.numStates + 1 else st.numStates) + 1),
        edges := st.edges ++
          [{ source := if pi = 0 then st.splitNode
                       else (if pi ≠ 0 then st.numStates + 1 else st.numStates),
             target := if pi = lem.length - 1 then st.mergeNode
                       else (if pi ≠ 0 then st.numStates + 1 else st.numStates) + 1,
             label := .pyStr phon,
             labelPrev := some (if pi = 0 then "" else lem.getD (pi - 1) ""),
             labelNext := some (if pi = lem.length - 1 then "" else lem.getD (pi + 1) ""),
             score := if pi = 0 then some score else none,
             idxWordInSentence := some (wi : Int),
             idxPhonInWord := some (pi : Int),
             idx := some ((if pi ≠ 0 then st.numStates + 1 else st.numStates) + (pi : Int)),
             phonAtWordBegin := pi = 0,
             phonAtWordEnd := pi = lem.length - 1 }] } := by
  have hA : ¬(pdl ≠ 1 ∧ li = 0 ∧ pi = 0) := fun h => hli h.2.1
  have hB : ¬(pdl ≠ 1 ∧ li = 0 ∧ pi = lem.length - 1) := fun h => hli h.2.1
  unfold hmmPhonStep
  simp only [if_neg hpdl, if_neg hli, if_neg hA, if_neg hB]
/-- In variant mode a phoneme chain hangs its edges between the recorded
split and merge nodes and the fresh middle states: the used states stay
gap-free, split/merge are untouched, and the final target is in range.
The `rest = lem.drop pi` hypothesis ties the running index to the list. -/
theorem hmmEmitPhons_var (wi li pdl : Nat) (lem : List String) (score : Int)
    (hpdl : pdl ≠ 1) (hli : li ≠ 0) :
    ∀ (rest : List String) (pi : Nat) (st : HmmState),
      rest = lem.drop pi →
      0 ≤ st.numStates →
      0 ≤ st.splitNode → st.splitNode ≤ st.numStates →
      0 ≤ st.mergeNode → st.mergeNode ≤ st.numStates →
      (∀ k, referenced st.edges k ↔
        (0 ≤ k ∧ k ≤ st.numStates + (if pi ≠ 0 ∧ rest ≠ [] then 1 else 0))) →
      st.numStates ≤ (hmmEmitPhons wi li pdl lem score pi rest st).numStates ∧
      (hmmEmitPhons wi li pdl lem score pi rest st).splitNode = st.splitNode ∧
      (hmmEmitPhons wi li pdl lem score pi rest st).mergeNode = st.mergeNode ∧
      (∀ k, referenced (hmmEmitPhons wi li pdl lem score pi rest st).edges k ↔
        (0 ≤ k ∧ k ≤ (hmmEmitPhons wi li pdl lem score pi rest st).numStates)) ∧
      (rest = [] → hmmEmitPhons wi li pdl lem score pi rest st = st) ∧
      (rest ≠ [] → ∃ t, (hmmEmitPhons wi li pdl lem score pi rest st).targetNode = some t ∧
        0 ≤ t ∧ t ≤ (hmmEmitPhons wi li pdl lem score pi rest st).numStates) := by
  intro rest
  induction rest with
  | nil =>
      intro pi st _ h0 hsp0 hsp1 hmg0 hmg1 hrefs
      refine ⟨le_refl _, rfl, rfl, ?_, fun _ => rfl, fun h => absurd rfl h⟩
      intro k
      rw [show hmmEmitPhons wi li pdl lem score pi [] st = st from rfl]
      rw [hrefs k]
      rw [if_neg (fun h => h.2 rfl)]
      omega
  | cons phon rest2 ih =>
      intro pi st hrest h0 hsp0 hsp1 hmg0 hmg1 hrefs
      have hlt : pi < lem.length := by
        by_contra hge
        push_neg at hge
        rw [List.drop_eq_nil_of_le hge] at hrest
        exact absurd hrest (List.cons_ne_nil _ _)
      have hr2 : rest2 = lem.drop (pi + 1) := by
        rw [← List.tail_drop, ← hrest, List.tail_cons]
      have hlast_iff : rest2 = [] ↔ pi = lem.length - 1 := by
        constructor
        · intro h
          rw [h] at hr2
          have := List.drop_eq_nil_iff.mp hr2.symm
          omega
        · intro h
          rw [hr2]
          exact List.drop_eq_nil_of_le (by omega)
      have hout : hmmEmitPhons wi li pdl lem score pi (phon :: rest2) st =
          hmmEmitPhons wi li pdl lem score (pi + 1) rest2
            (hmmPhonStep wi li pdl lem score pi phon st) := rfl
      rw [hout, hmmPhonStep_var wi li pdl lem score pi phon st hpdl hli]
      by_cases hpi : pi = 0
      · have hrefs0 : ∀ k, referenced st.edges k ↔ (0 ≤ k ∧ k ≤ st.numStates) := by
          intro k
          rw [hrefs k, if_neg (fun h => h.1 hpi)]
          omega
        by_cases hr2e : rest2 = []
        · have hlast := hlast_iff.mp hr2e
          subst hr2e
          simp only [if_pos hpi, if_pos hlast, if_neg (not_not_intro hpi)]
          refine ⟨?_, rfl, rfl, ?_, fun h => absurd h (List.cons_ne_nil _ _), fun _ => ?_⟩
          · dsimp only [hmmEmitPhons]
            omega
          · dsimp only [hmmEmitPhons]
            exact refs_snoc st.edges _ st.numStates st.numStates hrefs0
              (by dsimp only; omega) (by dsimp only; omega) (by omega)
              (fun h => absurd h (by omega))
          · dsimp only [hmmEmitPhons]
            exact ⟨st.mergeNode, rfl, by omega, by omega⟩
        · have hlast : ¬ pi = lem.length - 1 := fun h => hr2e (hlast_iff.mpr h)
          simp only [if_pos hpi, if_neg hlast, if_neg (not_not_intro hpi)]
          have hrefs1 : ∀ k, referenced (st.edges ++
              [{ source := st.splitNode, target := st.numStates + 1,
                 label := .pyStr phon,
                 labelPrev := some "",
                 labelNext := some (lem.getD (pi + 1) ""),
                 score := some score,
                 idxWordInSentence := some (wi : Int),
                 idxPhonInWord := some (pi : Int),
                 idx := some (st.numStates + (pi : Int)),
                 phonAtWordBegin := pi = 0,
                 phonAtWordEnd := pi = lem.length - 1 }]) k ↔
              (0 ≤ k ∧ k ≤ st.numStates + 1) :=
            refs_snoc st.edges _ st.numStates (st.numStates + 1) hrefs0
              (by dsimp only; omega) (by dsimp only; omega) (by omega)
              (fun _ => Or.inr rfl)
          have hres := ih (pi + 1)
            { numStates := st.numStates, splitNode := st.splitNode,
              mergeNode := st.mergeNode, targetNode := some (st.numStates + 1),
              edges := st.edges ++
                [{ source := st.splitNode, target := st.numStates + 1,
                   label := .pyStr phon,
                   labelPrev := some "",
                   labelNext := some (lem.getD (pi + 1) ""),
                   score := some score,
                   idxWordInSentence := some (wi : Int),
                   idxPhonInWord := some (pi : Int),
                   idx := some (st.numStates + (pi : Int)),
                   phonAtWordBegin := pi = 0,
                   phonAtWordEnd := pi = lem.length - 1 }] }
            hr2 h0 hsp0 hsp1 hmg0 hmg1
            (by
              intro k
              rw [if_pos ⟨Nat.succ_ne_zero pi, hr2e⟩]
              exact hrefs1 k)
          refine ⟨hres.1, hres.2.1, hres.2.2.1, hres.2.2.2.1, 
            fun h => absurd h (List.cons_ne_nil _ _), fun _ => hres.2.2.2.2.2 hr2e⟩
      · have hrefs1 : ∀ k, referenced st.edges k ↔ (0 ≤ k ∧ k ≤ st.numStates + 1) := by
          intro k
          rw [hrefs k, if_pos ⟨hpi, List.cons_ne_nil phon rest2⟩]
        by_cases hr2e : rest2 = []
        · have hlast := hlast_iff.mp hr2e
          subst hr2e
          simp only [if_pos hpi, if_pos hlast, if_neg hpi]
          refine ⟨?_, rfl, rfl, ?_, fun h => absurd h (List.cons_ne_nil _ _), fun _ => ?_⟩
          · dsimp only [hmmEmitPhons]
            omega
          · dsimp only [hmmEmitPhons]
            exact refs_snoc st.edges _ (st.numStates + 1) (st.numStates + 1) hrefs1
              (by dsimp only; omega) (by dsimp only; omega) (by omega)
              (fun h => absurd h (by omega))
          · dsimp only [hmmEmitPhons]
            exact ⟨st.mergeNode, rfl, by omega, by omega⟩
        · have hlast : ¬ pi = lem.length - 1 := fun h => hr2e (hlast_iff.mpr h)
          simp only [if_pos hpi, if_neg hlast, if_neg hpi]
          have hrefs2 : ∀ k, referenced (st.edges ++
              [{ source := st.numStates + 1, target := st.numStates + 1 + 1,
                 label := .pyStr phon,
                 labelPrev := some (lem.getD (pi - 1) ""),
                 labelNext := some (lem.getD (pi + 1) ""),
                 score := none,
                 idxWordInSentence := some (wi : Int),
                 idxPhonInWord := some (pi : Int),
                 idx := some (st.numStates + 1 + (pi : Int)),
                 phonAtWordBegin := pi = 0,
                 phonAtWordEnd := pi = lem.length - 1 }]) k ↔
              (0 ≤ k ∧ k ≤ st.numStates + 1 + 1) :=
            refs_snoc st.edges _ (st.numStates + 1) (st.numStates + 1 + 1) hrefs1
              (by dsimp only; omega) (by dsimp only; omega) (by omega)
              (fun _ => Or.inr rfl)
          have hres := ih (pi + 1)
            { numStates := st.numStates + 1, splitNode := st.splitNode,
              mergeNode := st.mergeNode, targetNode := some (st.numStates + 1 + 1),
              edges := st.edges ++
                [{ source := st.numStates + 1, target := st.numStates + 1 + 1,
                   label := .pyStr phon,
                   labelPrev := some (lem.getD (pi - 1) ""),
                   labelNext := some (lem.getD (pi + 1) ""),
                   score := none,
                   idxWordInSentence := some (wi : Int),
                   idxPhonInWord := some (pi : Int),
                   idx := some (st.numStates + 1 + (pi : Int)),
                   phonAtWordBegin := pi = 0,
                   phonAtWordEnd := pi = lem.length - 1 }] }
            hr2 (by dsimp only; omega) hsp0 (by dsimp only; omega) hmg0 (by dsimp only; omega)
            (by
              intro k
              rw [if_pos ⟨Nat.succ_ne_zero pi, hr2e⟩]
              exact hrefs2 k)
          refine ⟨by have := hres.1; dsimp only at this; omega, hres.2.1, hres.2.2.1, hres.2.2.2.1,
            fun h => absurd h (List.cons_ne_nil _ _), fun _ => hres.2.2.2.2.2 hr2e⟩
/-- The pronunciation-variant loop preserves the phase invariant and only
grows `num_states`. -/
theorem hmmEmitLemmas_phase (wi pdl : Nat) :
    ∀ (vs : List HmmVariant) (li : Nat) (st : HmmState), HmmPhase st →
      HmmPhase (hmmEmitLemmas wi pdl li vs st) ∧
      st.numStates ≤ (hmmEmitLemmas wi pdl li vs st).numStates := by
  intro vs
  induction vs with
  | nil => intro li st hp; exact ⟨hp, le_refl _⟩
  | cons v vs ih =>
      intro li st hp
      by_cases hch : pdl = 1 ∨ li = 0
      · have h1 := hmmEmitPhons_chain wi li pdl (phonSplit v.phon) v.score hch
          (phonSplit v.phon) 0 st hp
        have hrec := ih (li + 1) _ h1.1
        exact ⟨hrec.1, le_trans h1.2 hrec.2⟩
      · push_neg at hch
        rcases hch with ⟨hpdl, hli⟩
        rcases hp with ⟨h0, hrefs, htn, hs0, hs1, hm0, hm1⟩
        have h1 := hmmEmitPhons_var wi li pdl (phonSplit v.phon) v.score hpdl hli
          (phonSplit v.phon) 0 st (List.drop_zero _).symm h0 hs0 hs1 hm0 hm1
          (by
            intro k
            rw [hrefs k, if_neg (fun hc => hc.1 rfl)]
            omega)
        obtain ⟨hmono, hsp, hmg, hrefs1, hemp, hne⟩ := h1
        have hp1 : HmmPhase (hmmEmitPhons wi li pdl (phonSplit v.phon) v.score 0
            (phonSplit v.phon) st) := by
          refine ⟨by omega, hrefs1, ?_, ?_, ?_, ?_, ?_⟩
          · intro t ht
            by_cases hv : phonSplit v.phon = []
            · rw [hemp hv] at ht ⊢
              exact htn t ht
            · rcases hne hv with ⟨t2, ht2, hb0, hb1⟩
              rw [ht2] at ht
              cases Option.some.inj ht
              exact ⟨hb0, hb1⟩
          · rw [hsp]; omega
          · rw [hsp]; omega
          · rw [hmg]; omega
          · rw [hmg]; omega
        have hrec := ih (li + 1) _ hp1
        exact ⟨hrec.1, le_trans hmono hrec.2⟩

/-- One word of the HMM word loop (lexicon hit assumed by the `some`
hypothesis) preserves the phase invariant and only grows `num_states`. -/
theorem hmmWordStep_phase (lex : Lexicon) (wi : Nat) (w : String) (st st2 : HmmState)
    (hp : HmmPhase st) (h : hmmWordStep lex wi w st = some st2) :
    HmmPhase st2 ∧ st.numStates ≤ st2.numStates := by
  unfold hmmWordStep at h
  simp only [bind, Option.bind_eq_some] at h
  rcases h with ⟨variants, hv, h⟩
  rcases h with ⟨tn, htn, h⟩
  rcases Option.some.inj h with rfl
  have hlem := hmmEmitLemmas_phase wi variants.length variants 0 st hp
  obtain ⟨⟨h0, hrefs, htnb, hs0, hs1, hm0, hm1⟩, hmono⟩ := hlem
  have htnv := htnb tn htn
  refine ⟨⟨by dsimp only; omega, ?_, ?_, by dsimp only; omega, by dsimp only; omega,
    by dsimp only; omega, by dsimp only; omega⟩, by dsimp only; omega⟩
  · dsimp only
    intro k
    rw [show (hmmEmitLemmas wi variants.length 0 variants st).edges ++
        [{ source := tn, target := (hmmEmitLemmas wi variants.length 0 variants st).numStates + 1,
           label := silLabel },
         { source := tn, target := (hmmEmitLemmas wi variants.length 0 variants st).numStates + 1,
           label := epsLabel }] =
        ((hmmEmitLemmas wi variants.length 0 variants st).edges ++
         [{ source := tn, target := (hmmEmitLemmas wi variants.length 0 variants st).numStates + 1,
            label := silLabel }]) ++
        [{ source := tn, target := (hmmEmitLemmas wi variants.length 0 variants st).numStates + 1,
           label := epsLabel }] from by rw [List.append_assoc]; rfl]
    refine refs_snoc _ _ ((hmmEmitLemmas wi variants.length 0 variants st).numStates + 1)
      ((hmmEmitLemmas wi variants.length 0 variants st).numStates + 1) ?_
      (by dsimp only; omega) (by dsimp only; omega) (by omega)
      (fun hc => absurd hc (by omega)) k
    exact refs_snoc _ _ (hmmEmitLemmas wi variants.length 0 variants st).numStates
      ((hmmEmitLemmas wi variants.length 0 variants st).numStates + 1) hrefs
      (by dsimp only; omega) (by dsimp only; omega) (by omega)
      (fun _ => Or.inr rfl)
  · dsimp only
    intro t ht
    have := htnb t ht
    omega

/-- The tail of the word loop (`word_idx ≠ 0`) preserves the phase
invariant and only grows `num_states`. -/
theorem hmmEmitWords_phase (lex : Lexicon) :
    ∀ (ws : List String) (wi : Nat) (st st2 : HmmState), wi ≠ 0 → HmmPhase st →
      hmmEmitWords lex wi ws st = some st2 →
      HmmPhase st2 ∧ st.numStates ≤ st2.numStates := by
  intro ws
  induction ws with
  | nil =>
      intro wi st st2 _ hp h
      cases Option.some.inj h
      exact ⟨hp, le_refl _⟩
  | cons w ws ih =>
      intro wi st st2 hwi hp h
      unfold hmmEmitWords at h
      dsimp only at h
      rw [if_neg hwi] at h
      simp only [bind, Option.bind_eq_some] at h
      rcases h with ⟨stmid, hstep, hrec⟩
      have h1 := hmmWordStep_phase lex wi w st stmid hp hstep
      have h2 := ih (wi + 1) stmid st2 (Nat.succ_ne_zero wi) h1.1 hrec
      exact ⟨h2.1, le_trans h1.2 h2.2⟩
/-- The middle branch of the inner allophone loop. -/
theorem alloInnerStep_mid (K tgt : Int) (acc : Edge × Int × List Edge) (state : Nat)
    (h0 : state ≠ 0) (hlast : ¬((state : Int) = K - 1)) :
    alloInnerStep K tgt acc state =
      (acc.1, acc.2.1 + 1, acc.2.2 ++
        [{ acc.1 with alloIdx := some (state : Int),
                      source := acc.2.1 + 1 - 1, target := acc.2.1 + 1 }]) := by
  unfold alloInnerStep
  rw [if_neg h0, if_neg hlast]

/-- The closing branch of the inner allophone loop. -/
theorem alloInnerStep_last (K tgt : Int) (acc : Edge × Int × List Edge) (state : Nat)
    (h0 : state ≠ 0) (hlast : (state : Int) = K - 1) :
    alloInnerStep K tgt acc state =
      (acc.1, acc.2.1 + 1, acc.2.2 ++
        [{ acc.1 with alloIdx := some (state : Int),
                      source := acc.2.1, target := tgt }]) := by
  unfold alloInnerStep
  rw [if_neg h0, if_pos hlast]

/-- The inner allophone loop before its last state: the carried edge is the
original retargeted to the first fresh state, the counter has advanced by
`m - 1`, and the accumulated chain edges reference exactly the fresh
states consumed so far. -/
theorem alloInnerStep_fold (K tgt : Int) (e : Edge) (ns0 : Int) :
    ∀ (m : Nat), 1 ≤ m → (m : Int) ≤ K - 1 →
      ((List.range m).foldl (alloInnerStep K tgt) (e, ns0, [])).1 =
        { e with target := ns0, alloIdx := some 0 } ∧
      ((List.range m).foldl (alloInnerStep K tgt) (e, ns0, [])).2.1 = ns0 + (m : Int) - 1 ∧
      (∀ k, referenced ((List.range m).foldl (alloInnerStep K tgt) (e, ns0, [])).2.2 k ↔
        (2 ≤ m ∧ ns0 ≤ k ∧ k ≤ ns0 + (m : Int) - 1)) := by
  intro m
  induction m with
  | zero => intro h1 _; exact absurd h1 (by omega)
  | succ n ih =>
      intro h1 h2
      by_cases hn : n = 0
      · subst hn
        rw [show List.range (0 + 1) = [0] from rfl]
        rw [show List.foldl (alloInnerStep K tgt) (e, ns0, []) [0] =
          alloInnerStep K tgt (e, ns0, []) 0 from rfl]
        unfold alloInnerStep
        rw [if_pos rfl]
        refine ⟨rfl, by dsimp only; omega, ?_⟩
        intro k
        dsimp only
        constructor
        · intro habs
          exact absurd habs (referenced_nil k)
        · intro habs
          omega
      · have hge : 1 ≤ n := by omega
        have hle : (n : Int) ≤ K - 1 := by push_cast at h2 ⊢; omega
        obtain ⟨ih1, ih2, ih3⟩ := ih hge hle
        rw [List.range_succ, List.foldl_append, List.foldl_cons, List.foldl_nil]
        rw [alloInnerStep_mid K tgt _ n hn
          (show ¬((n : Int) = K - 1) from by push_cast at h2; omega)]
        refine ⟨ih1, by dsimp only; rw [ih2]; push_cast; omega, ?_⟩
        intro k
        dsimp only
        rw [referenced_append, referenced_singleton, ih3 k]
        dsimp only
        rw [ih2]
        push_cast
        omega
/-- One edge of the allophone expansion pass (`1 < K`, non-silence,
non-epsilon): the fresh-state counter advances by `K - 1` and the new
main/temporary edges reference exactly the old endpoints plus the fresh
chain states. -/
theorem alloExpandEdge_spec (K : Int) (hK : 1 < K) (acc : Int × List Edge × List Edge)
    (e : Edge) (hskip : ¬(e.label = silLabel ∨ e.label = epsLabel)) :
    (alloExpandEdge K acc e).1 = acc.1 + K - 1 ∧
    (∀ k, (referenced (alloExpandEdge K acc e).2.1 k ∨
           referenced (alloExpandEdge K acc e).2.2 k) ↔
      ((referenced acc.2.1 k ∨ referenced acc.2.2 k) ∨
       (e.source = k ∨ e.target = k) ∨
       (acc.1 ≤ k ∧ k ≤ acc.1 + K - 2))) := by
  have hm1 : 1 ≤ K.toNat - 1 := by omega
  have hm2 : ((K.toNat - 1 : Nat) : Int) ≤ K - 1 := by omega
  obtain ⟨ih1, ih2, ih3⟩ := alloInnerStep_fold K e.target e acc.1 (K.toNat - 1) hm1 hm2
  have hrange : K.toNat = (K.toNat - 1) + 1 := by omega
  unfold alloExpandEdge
  rw [if_neg hskip]
  dsimp only
  rw [hrange, List.range_succ, List.foldl_append, List.foldl_cons, List.foldl_nil]
  rw [alloInnerStep_last K e.target _ (K.toNat - 1) (by omega) (by omega)]
  rw [ih1, ih2]
  dsimp only
  refine ⟨by omega, ?_⟩
  intro k
  rw [referenced_append, referenced_singleton, referenced_append, referenced_append,
    referenced_singleton, ih3 k]
  dsimp only
  by_cases hA : referenced acc.2.1 k <;> by_cases hB : referenced acc.2.2 k <;>
    simp only [hA, hB, iff_true, iff_false, true_or, or_true, false_or, or_false] <;>
      omega
/-- The allophone expansion fold over a whole edge list: the fresh-state
counter only grows, and the produced main/temporary edges reference
exactly the old accumulator references, the input edges' endpoints, and
the fresh states consumed. -/
theorem alloExpand_fold (K : Int) (hK : 1 < K) :
    ∀ (es : List Edge) (acc : Int × List Edge × List Edge),
      acc.1 ≤ (es.foldl (alloExpandEdge K) acc).1 ∧
      ∀ k, (referenced (es.foldl (alloExpandEdge K) acc).2.1 k ∨
            referenced (es.foldl (alloExpandEdge K) acc).2.2 k) ↔
        ((referenced acc.2.1 k ∨ referenced acc.2.2 k) ∨ referenced es k ∨
         (acc.1 ≤ k ∧ k < (es.foldl (alloExpandEdge K) acc).1)) := by
  intro es
  induction es with
  | nil =>
      intro acc
      refine ⟨le_refl _, ?_⟩
      intro k
      simp only [List.foldl_nil]
      constructor
      · exact fun h => Or.inl h
      · rintro (h | h | h)
        · exact h
        · exact absurd h (referenced_nil k)
        · omega
  | cons e es ih =>
      intro acc
      rw [List.foldl_cons]
      by_cases hskip : e.label = silLabel ∨ e.label = epsLabel
      · have hstep : alloExpandEdge K acc e = (acc.1, acc.2.1 ++ [e], acc.2.2) := by
          unfold alloExpandEdge
          rw [if_pos hskip]
        rw [hstep]
        obtain ⟨ihm, ihr⟩ := ih (acc.1, acc.2.1 ++ [e], acc.2.2)
        refine ⟨by dsimp only at ihm; exact ihm, ?_⟩
        intro k
        rw [ihr k]
        dsimp only
        rw [referenced_append, referenced_singleton,
          show e :: es = [e] ++ es from rfl, referenced_append, referenced_singleton]
        tauto
      · obtain ⟨hsp1, hsp2⟩ := alloExpandEdge_spec K hK acc e hskip
        obtain ⟨ihm, ihr⟩ := ih (alloExpandEdge K acc e)
        refine ⟨by omega, ?_⟩
        intro k
        rw [ihr k, hsp2 k,
          show e :: es = [e] ++ es from rfl, referenced_append, referenced_singleton]
        rw [hsp1] at ihm ⊢
        by_cases hA : referenced acc.2.1 k <;> by_cases hB : referenced acc.2.2 k <;>
          by_cases hC : referenced es k <;>
            simp only [hA, hB, hC, iff_true, iff_false, true_or, or_true, false_or,
              or_false] <;> omega

/-- The allophone expansion pass preserves the gap-free used-state
property, updating the state count to the advanced counter. -/
theorem alloExpand_statesExact (K ns1 : Int) (edges : List Edge)
    (h0 : 0 ≤ ns1) (h : StatesExact ns1 edges) :
    StatesExact (alloExpand K ns1 edges).1 (alloExpand K ns1 edges).2 := by
  unfold alloExpand
  by_cases hK : 1 < K
  · rw [if_pos hK]
    dsimp only
    obtain ⟨hm, hr⟩ := alloExpand_fold K hK edges (ns1, [], [])
    dsimp only at hm
    intro k
    rw [referenced_append, hr k, h k]
    dsimp only
    constructor
    · rintro ((h1 | h1) | h1 | h1)
      · exact absurd h1 (referenced_nil k)
      · exact absurd h1 (referenced_nil k)
      · omega
      · omega
    · intro h1
      by_cases hk : k < ns1
      · exact Or.inr (Or.inl (by omega))
      · exact Or.inr (Or.inr (by omega))
  · rw [if_neg hK]
    exact h
/-- The transposition of the two state numbers `u` and `v`. -/
def swapVal (u v k : Int) : Int :=
  if k = u then v else if k = v then u else k

/-- For distinct states, one swap rewrite of the repair pass acts on both
endpoints as the transposition of `u` and `v`. -/
theorem swapNodesEdge_endpoints (u v : Int) (huv : u ≠ v) (e : Edge) :
    (swapNodesEdge u v e).source = swapVal u v e.source ∧
    (swapNodesEdge u v e).target = swapVal u v e.target := by
  unfold swapNodesEdge swapVal
  by_cases hs : e.source = u <;> by_cases ht : e.target = u <;>
    by_cases hs2 : e.source = v <;> by_cases ht2 : e.target = v <;>
      simp only [hs, ht, hs2, ht2, and_true, and_false, true_and, false_and,
        if_true, if_false] <;>
        (constructor <;> (try dsimp only) <;>
          first | omega | (split_ifs <;> (try dsimp only) <;> omega))

/-- The transposition is an involution. -/
theorem swapVal_invol (u v k : Int) : swapVal u v (swapVal u v k) = k := by
  unfold swapVal
  split_ifs <;> omega

/-- Mapping one swap rewrite over an edge list permutes the referenced
state set by the transposition. -/
theorem referenced_swap (u v : Int) (huv : u ≠ v) (es : List Edge) (k : Int) :
    referenced (es.map (swapNodesEdge u v)) k ↔ referenced es (swapVal u v k) := by
  unfold referenced
  constructor
  · rintro ⟨f, hf, hk⟩
    rcases List.mem_map.mp hf with ⟨e, he, rfl⟩
    obtain ⟨h1, h2⟩ := swapNodesEdge_endpoints u v huv e
    refine ⟨e, he, ?_⟩
    rcases hk with hk | hk
    · left
      rw [h1] at hk
      rw [← hk, swapVal_invol]
    · right
      rw [h2] at hk
      rw [← hk, swapVal_invol]
  · rintro ⟨e, he, hk⟩
    refine ⟨swapNodesEdge u v e, List.mem_map_of_mem _ he, ?_⟩
    obtain ⟨h1, h2⟩ := swapNodesEdge_endpoints u v huv e
    rcases hk with hk | hk
    · left
      rw [h1, hk, swapVal_invol]
    · right
      rw [h2, hk, swapVal_invol]

/-- One swap rewrite of the repair pass preserves an exact used-state
interval whenever both swapped states lie inside it. -/
theorem swap_interval (u v : Int) (huv : u ≠ v) (es : List Edge) (B : Int)
    (hrefs : ∀ k, referenced es k ↔ (0 ≤ k ∧ k < B))
    (hu : 0 ≤ u ∧ u < B) (hv : 0 ≤ v ∧ v < B) :
    ∀ k, referenced (es.map (swapNodesEdge u v)) k ↔ (0 ≤ k ∧ k < B) := by
  intro k
  rw [referenced_swap u v huv es k, hrefs (swapVal u v k)]
  unfold swapVal
  split_ifs <;> omega

/-- The fueled repair loop preserves an exact used-state interval. -/
theorem hmmRepair_refs (B : Int) :
    ∀ (fuel : Nat) (es : List Edge) (idx : Nat) (out : List Edge),
      hmmRepair fuel es idx = some out →
      (∀ k, referenced es k ↔ (0 ≤ k ∧ k < B)) →
      (∀ k, referenced out k ↔ (0 ≤ k ∧ k < B)) := by
  intro fuel
  induction fuel with
  | zero => intro es idx out h; exact absurd h (by unfold hmmRepair; simp)
  | succ n ih =>
      intro es idx out h hrefs
      unfold hmmRepair at h
      cases hidx : es[idx]? with
      | none =>
          rw [hidx] at h
          cases Option.some.inj h
          exact hrefs
      | some e =>
          rw [hidx] at h
          dsimp only at h
          have hmem : e ∈ es := by
            rcases List.getElem?_eq_some.mp hidx with ⟨hlen, hval⟩
            exact hval ▸ List.getElem_mem hlen
          by_cases hinv : e.target < e.source
          · rw [if_pos hinv] at h
            have hu := (hrefs e.source).mp ⟨e, hmem, Or.inl rfl⟩
            have hv := (hrefs e.target).mp ⟨e, hmem, Or.inr rfl⟩
            exact ih _ 1 out h
              (swap_interval e.source e.target (by omega) es B hrefs hu hv)
          · rw [if_neg hinv] at h
            exact ih _ (idx + 1) out h hrefs
/-- The HMM self-loop pass adds only self-loops at already-referenced
states, so the referenced state set is unchanged. -/
theorem hmmLoopsPass_refs (ns : Int) (es : List Edge) :
    ∀ k, referenced (hmmLoopsPass ns es) k ↔ referenced es k := by
  unfold hmmLoopsPass
  generalize pyRange1 ns = idxs
  induction idxs generalizing es with
  | nil => intro k; exact Iff.rfl
  | cons loopIdx rest ih =>
      intro k
      simp only [List.foldl_cons]
      rw [ih]
      rw [referenced_append]
      constructor
      · rintro (h | ⟨e, he, hk⟩)
        · exact h
        · rcases List.mem_map.mp he with ⟨e0, he0, rfl⟩
          exact ⟨e0, List.mem_of_mem_filter he0, Or.inr (by simpa using hk)⟩
      · exact Or.inl

/-- The stringification/tying pass keeps every edge's endpoints. -/
theorem hmmStringify_refs (tying : Option StateTying) (es : List Edge) :
    ∀ k, referenced (hmmStringify tying es) k ↔ referenced es k := by
  intro k
  unfold hmmStringify referenced
  constructor
  · rintro ⟨f, hf, hk⟩
    rcases List.mem_map.mp hf with ⟨e, he, rfl⟩
    refine ⟨e, he, ?_⟩
    rcases tying with _ | ty
    · exact hk
    · dsimp only at hk
      split at hk
      · exact hk
      · split at hk
        · exact hk
        · exact hk
  · rintro ⟨e, he, hk⟩
    refine ⟨_, List.mem_map_of_mem _ he, ?_⟩
    rcases tying with _ | ty
    · exact hk
    · dsimp only
      split
      · exact hk
      · split
        · exact hk
        · exact hk
/-- `Hmm.run` from a fresh graph produces a gap-free used-state set
matching the finalized `num_states_hmm`. -/
theorem hmmRun_statesExact (fuel : Nat) (lex : Lexicon) (K : Int) (stc : Bool)
    (tying : StateTying) (g g2 : Graph)
    (hempty : g.edges = []) (hns : g.numStates = -1)
    (h : hmmRun fuel lex K stc tying g = some g2) :
    StatesExact g2.numStatesHmm g2.edgesHmm := by
  unfold hmmRun at h
  simp only [bind, Option.bind_eq_some] at h
  rcases h with ⟨st, hwords, h⟩
  rcases h with ⟨es3, hrep, h⟩
  rcases Option.some.inj h with rfl
  have hbase : 0 ≤ st.numStates + 1 ∧ StatesExact (st.numStates + 1) st.edges := by
    cases hlem : g.lemList with
    | nil =>
        rw [hlem] at hwords
        have hst := Option.some.inj hwords
        rw [← hst, hempty, hns]
        refine ⟨by dsimp only; omega, ?_⟩
        intro k
        dsimp only
        constructor
        · intro habs
          exact absurd habs (referenced_nil k)
        · intro habs
          omega
    | cons w ws =>
        rw [hlem] at hwords
        unfold hmmEmitWords at hwords
        dsimp only at hwords
        rw [if_pos rfl] at hwords
        rw [hempty, hns] at hwords
        simp only [bind, Option.bind_eq_some] at hwords
        rcases hwords with ⟨stmid, hstep, hrec⟩
        have hp0 : HmmPhase
            { numStates := -1 + 2, splitNode := 0, mergeNode := 0,
              targetNode := none,
              edges := [] ++
                [{ source := 0, target := 1, label := silLabel },
                 { source := 0, target := 1, label := epsLabel }] } := by
          refine ⟨by dsimp only; omega, ?_, fun t ht => Option.noConfusion ht,
            by dsimp only; omega, by dsimp only; omega, by dsimp only; omega,
            by dsimp only; omega⟩
          intro k
          dsimp only
          rw [List.nil_append]
          constructor
          · rintro ⟨e, he, hk⟩
            rcases List.mem_cons.mp he with rfl | he
            · dsimp only at hk
              omega
            rcases List.mem_cons.mp he with rfl | he
            · dsimp only at hk
              omega
            · exact absurd he (List.not_mem_nil e)
          · intro hk
            by_cases h0 : k = 0
            · exact ⟨_, List.mem_cons_self _ _, Or.inl (by dsimp only; omega)⟩
            · exact ⟨_, List.mem_cons_self _ _, Or.inr (by dsimp only; omega)⟩
        have h1 := hmmWordStep_phase lex 0 w _ stmid hp0 hstep
        have h2 := hmmEmitWords_phase lex ws 1 stmid st (by omega) h1.1 hrec
        obtain ⟨⟨hp0', hrefs, _, _, _, _, _⟩, _⟩ := h2
        refine ⟨by omega, ?_⟩
        intro k
        rw [hrefs k]
        omega
  have hSE1 := alloExpand_statesExact K (st.numStates + 1) st.edges hbase.1 hbase.2
  have hrepref := hmmRepair_refs (alloExpand K (st.numStates + 1) st.edges).1 fuel
    (alloExpand K (st.numStates + 1) st.edges).2 0 es3 hrep hSE1
  intro k
  dsimp only
  rw [pySortEdges_refs, hmmStringify_refs, hmmLoopsPass_refs]
  exact hrepref k
/-- `Asg.run` without inter-word separation produces a gap-free used-state
set matching the finalized `num_states_asg`. -/
theorem asgRun_statesExact (numLabels R : Int) (lc : Bool) (g g2 : Graph)
    (hempty : g.edges = []) (h : asgRun numLabels R lc false g = some g2) :
    StatesExact g2.numStatesAsg g2.edgesAsg := by
  unfold asgRun at h
  dsimp only at h
  rw [Option.map_eq_some'] at h
  rcases h with ⟨es, hconv, hg2⟩
  cases hg2
  have hinv0 : AsgChainInv
      { numStates := 0, curIdx := 0, srcIdx := 0, trgtIdx := 0, edges := g.edges } := by
    refine ⟨by dsimp only; omega, ?_, ?_⟩
    · intro _
      exact ⟨hempty, rfl⟩
    · intro habs
      dsimp only at habs
      omega
  have hchain := asgEmitWords_chain (asgReps numLabels R g.lemList).length
    (asgReps numLabels R g.lemList) 0 _ hinv0
  have hse := asgChainInv_statesExact _ hchain
  intro k
  dsimp only
  rw [maybeLabelConversion_refs lc _ es hconv k, pySortEdges_refs, asgLoopsPass_refs]
  exact hse k
/-- Sorting keeps the length. -/
theorem pySortEdges_length (es : List Edge) :
    (pySortEdges es).length = es.length :=
  (List.perm_insertionSort edgeLE es).length_eq

/-- C2 (counterexample): with inter-word separation enabled, `Asg.run` on
`lem_list = ["", "a"]` finalizes `num_states_asg = 2` while no edge
references state 0 (a gap) and an edge references state 2 (so the count is
not one plus the maximum referenced index). -/
theorem c2_counter_separator_gap :
    ∃ g2, asgRun 256 2 false true { lemList := ["", "a"] } = some g2 ∧
      g2.numStatesAsg = 2 ∧
      g2.edgesAsg.countP (fun e => e.source == 0 || e.target == 0) = 0 ∧
      g2.edgesAsg.countP (fun e => e.source == 2 || e.target == 2) = 1 := by
  refine ⟨_, rfl, rfl, ?_, ?_⟩
  · dsimp only
    unfold pySortEdges
    rw [(List.perm_insertionSort edgeLE _).countP_eq]
    rfl
  · dsimp only
    unfold pySortEdges
    rw [(List.perm_insertionSort edgeLE _).countP_eq]
    rfl

/-- C2 (amended): the state-count invariant — the finalized count is one
plus the maximum referenced state index and no index up to the maximum is
unreferenced — holds for every completing `Ctc.run` and `Hmm.run` from a
fresh graph, and for `Asg.run` whenever inter-word separation is disabled
(its as-constructed value). -/
theorem c2_state_count_invariant :
    (∀ (numLabels R : Int) (lc : Bool) (g g2 : Graph), g.edges = [] →
      asgRun numLabels R lc false g = some g2 → g2.edgesAsg ≠ [] →
      g2.numStatesAsg = 1 + maxIdx g2.edgesAsg ∧
      ∀ k, 0 ≤ k → k ≤ maxIdx g2.edgesAsg → referenced g2.edgesAsg k) ∧
    (∀ (lc : Bool) (g g2 : Graph), g.edges = [] →
      ctcRun lc g = some g2 → g2.edgesCtc ≠ [] →
      g2.numStatesCtc = 1 + maxIdx g2.edgesCtc ∧
      ∀ k, 0 ≤ k → k ≤ maxIdx g2.edgesCtc → referenced g2.edgesCtc k) ∧
    (∀ (fuel : Nat) (lex : Lexicon) (K : Int) (stc : Bool) (tying : StateTying)
       (g g2 : Graph), g.edges = [] → g.numStates = -1 →
      hmmRun fuel lex K stc tying g = some g2 → g2.edgesHmm ≠ [] →
      g2.numStatesHmm = 1 + maxIdx g2.edgesHmm ∧
      ∀ k, 0 ≤ k → k ≤ maxIdx g2.edgesHmm → referenced g2.edgesHmm k) := by
  refine ⟨?_, ?_, ?_⟩
  · intro numLabels R lc g g2 he h hne
    exact statesExact_claim _ _ (asgRun_statesExact numLabels R lc g g2 he h) hne
  · intro lc g g2 he h hne
    exact statesExact_claim _ _ (ctcRun_statesExact lc g g2 he h) hne
  · intro fuel lex K stc tying g g2 he hn h hne
    exact statesExact_claim _ _ (hmmRun_statesExact fuel lex K stc tying g g2 he hn h) hne

/-- The finalized ASG graph of the C2 witness run. -/
def c2AsgOut : Graph :=
  (asgRun 256 2 false false { lemList := ["ab"] }).getD { lemList := [] }

/-- The finalized CTC graph of the C2 witness run. -/
def c2CtcWOut : Graph :=
  (ctcRun false { lemList := ["ab"] }).getD { lemList := [] }

/-- The finalized HMM graph of the C2 witness run. -/
def c2HmmOut : Graph :=
  (hmmRun 1000 [("ab", [{ phon := "x y", score := 0 }])] 3 false []
    { lemList := ["ab"] }).getD { lemList := [] }

/-- The HMM witness run finalizes a nonempty edge list. -/
theorem c2HmmOut_edges_ne_nil : c2HmmOut.edgesHmm ≠ [] := by
  have hlen : c2HmmOut.edgesHmm.length = 18 := by
    show (pySortEdges _).length = 18
    rw [pySortEdges_length]
    rfl
  intro habs
  rw [habs] at hlen
  exact absurd hlen (by decide)

theorem c2_state_count_invariant_witness :
    c2AsgOut.numStatesAsg = 1 + maxIdx c2AsgOut.edgesAsg ∧
    c2CtcWOut.numStatesCtc = 1 + maxIdx c2CtcWOut.edgesCtc ∧
    c2HmmOut.numStatesHmm = 1 + maxIdx c2HmmOut.edgesHmm :=
  ⟨(c2_state_count_invariant.1 256 2 false { lemList := ["ab"] } c2AsgOut rfl
      (by rfl) (by decide)).1,
   (c2_state_count_invariant.2.1 false { lemList := ["ab"] } c2CtcWOut rfl
      (by rfl) (by decide)).1,
   (c2_state_count_invariant.2.2 1000 [("ab", [{ phon := "x y", score := 0 }])] 3
      false [] { lemList := ["ab"] } c2HmmOut rfl rfl (by rfl)
      c2HmmOut_edges_ne_nil).1⟩
